import Mathlib

/-!
Verification of the kati Rust reimplementation (Make-language front end).

Byte strings from the Rust sources (`Bytes`, `&[u8]`, `Vec<u8>`) are modelled
as `List Nat` of byte values.  Each definition below is a direct translation
of the correspondingly named function in `src-rs`.
-/

namespace Kati

/-- Byte strings (`&[u8]` / `Bytes` in the Rust source). -/
abbrev ByteStr := List Nat

/-- Translation of `strutil.rs` `is_space_byte`: `(b'\t'..=b'\r').contains(&c) || c == b' '`. -/
def is_space_byte (c : Nat) : Bool := (9 ≤ c && c ≤ 13) || c == 32

/-- Translation of `strutil.rs` `word_scanner`:
`s.split(is_space_byte).filter(|s| !s.is_empty())`. -/
def word_scanner (s : ByteStr) : List ByteStr :=
  (List.splitOnP is_space_byte s).filter (fun w => !w.isEmpty)

/-- Model of `memchr::memchr`: index of the first occurrence of byte `c` in `s`. -/
def memchr (c : Nat) (s : ByteStr) : Option Nat := s.findIdx? (· == c)

/-- Model of `memchr::memrchr`: index of the last occurrence of byte `c` in `s`. -/
def memrchr (c : Nat) : ByteStr → Option Nat
  | [] => none
  | a :: as_ =>
    match memrchr c as_ with
    | some i => some (i + 1)
    | none => if a == c then some 0 else none

/-- Translation of `strutil.rs` `struct Pattern`. -/
structure Pattern where
  pat : ByteStr
  percent_index : Option Nat
deriving DecidableEq

/-- Translation of `Pattern::new`: record the index of the first `%` (byte 37). -/
def Pattern.new (pat : ByteStr) : Pattern :=
  { pat := pat, percent_index := memchr 37 pat }

/-- Translation of `Pattern::match_impl`:
`str.starts_with(&self.pat[..percent_index]) && str.ends_with(&self.pat[percent_index + 1..])`. -/
def Pattern.match_impl (p : Pattern) (str : ByteStr) (pi : Nat) : Bool :=
  (p.pat.take pi).isPrefixOf str && (p.pat.drop (pi + 1)).isSuffixOf str

/-- Translation of `Pattern::matches`. -/
def Pattern.matches (p : Pattern) (str : ByteStr) : Bool :=
  match p.percent_index with
  | some pi => p.match_impl str pi
  | none => p.pat == str

/-- Translation of `Pattern::stem`.  The Rust slice is
`&str[percent_index..(str.len() - self.pat.len() + 1 + percent_index)]`; the
end index is reassociated as `str.len() + 1 + percent_index - pat.len()` so the
arithmetic stays in `Nat` (the two agree whenever the Rust code does not
underflow). -/
def Pattern.stem (p : Pattern) (str : ByteStr) : ByteStr :=
  if !p.matches str then []
  else
    match p.percent_index with
    | some pi => (str.take (str.length + 1 + pi - p.pat.length)).drop pi
    | none => []

/-- Translation of `dep.rs` `is_special_target`:
`s.starts_with(b".") && !s[1..].starts_with(b".")`. -/
def is_special_target (s : ByteStr) : Bool :=
  [46].isPrefixOf s && !([46].isPrefixOf (s.drop 1))

/-- Translation of `dep.rs` `is_suffix_rule` (the `output.advance(1)` is `List.drop 1`). -/
def is_suffix_rule (s : ByteStr) : Bool :=
  if !is_special_target s then false
  else
    let o := s.drop 1
    match memchr 46 o with
    | some dot_index => (memchr 46 (o.drop (dot_index + 1))).isNone
    | none => false

/-- Natural-language reading of claim C4, written from the spec's words: a
target is a suffix rule iff it begins with `.` (byte 46), has exactly two `.`
separators, and neither dotted component is empty.  The components of
`.A.B` are the segments strictly between consecutive dots and after the last
dot, so the condition is: head is a dot, the total dot count is two, the
byte right after the leading dot is not a dot (first component non-empty),
and the string does not end in a dot (second component non-empty). -/
def suffix_rule_spec (s : ByteStr) : Bool :=
  s.head? == some 46 && s.count 46 == 2 && !(s.drop 1).head? == some 46 &&
    !(s.getLast? == some 46)

/-- Model of Rust slice ordering on `&[u8]` (`toks.sort()` in `sort_func`):
lexicographic strict order on byte strings. -/
def bytesLt : ByteStr → ByteStr → Bool
  | _, [] => false
  | [], _ :: _ => true
  | a :: as_, b :: bs => if a < b then true else if b < a then false else bytesLt as_ bs

/-- Lexicographic (non-strict) byte-string order, the comparator used to model
`toks.sort()`. -/
def bytesLe (a b : ByteStr) : Bool := !bytesLt b a

/-- Translation of the output loop of `func.rs` `sort_func`: `prev` starts as
the empty slice and each token equal to the previous written one is skipped. -/
def sortDedupLoop : ByteStr → List ByteStr → List ByteStr
  | _, [] => []
  | prev, t :: ts => if t == prev then sortDedupLoop prev ts else t :: sortDedupLoop t ts

/-- Translation of `func.rs` `sort_func`, applied to the already evaluated
argument: scan words, sort them, and write them out (space separated)
skipping adjacent duplicates. -/
def sort_func (list : ByteStr) : ByteStr :=
  List.intercalate [32] (sortDedupLoop [] ((word_scanner list).mergeSort bytesLe))

/-- Little-endian 4-byte encoding of `n % 2^32` (`i32::to_le_bytes` on the
two's-complement bit pattern). -/
def toLeBytes4 (n : Nat) : ByteStr :=
  [n % 256, n / 256 % 256, n / 65536 % 256, n / 16777216 % 256]

/-- Model of `val as i32` on a `usize` value: reduce mod `2^32` and reinterpret
as a signed 32-bit value. -/
def usize_as_i32 (n : Nat) : Int :=
  if n % 4294967296 < 2147483648 then (n % 4294967296 : Int)
  else (n % 4294967296 : Int) - 4294967296

/-- Two's-complement bit pattern of an `i32` as a natural number below `2^32`. -/
def i32_bits (v : Int) : Nat := (v % 4294967296).toNat

/-- Translation of `io.rs` `dump_int`: `out.write_all(&val.to_le_bytes())`. -/
def dump_int (v : Int) : ByteStr := toLeBytes4 (i32_bits v)

/-- Translation of `io.rs` `dump_usize`: `dump_int(out, val as i32)`. -/
def dump_usize (n : Nat) : ByteStr := dump_int (usize_as_i32 n)

/-- Translation of `io.rs` `dump_string`: length prefix followed by the raw bytes. -/
def dump_string (s : ByteStr) : ByteStr := dump_usize s.length ++ s

/-- Translation of `io.rs` `load_int`: read exactly 4 bytes, little-endian,
reinterpreted as a signed 32-bit value; `None` if fewer than 4 bytes remain.
The remainder of the input is returned alongside (the Rust reader advances). -/
def load_int : ByteStr → Option (Int × ByteStr)
  | b0 :: b1 :: b2 :: b3 :: rest =>
    let n := b0 % 256 + 256 * (b1 % 256) + 65536 * (b2 % 256) + 16777216 * (b3 % 256)
    some (if n < 2147483648 then (n : Int) else (n : Int) - 4294967296, rest)
  | _ => none

/-- Translation of `io.rs` `load_usize`: a negative length yields `None`. -/
def load_usize (s : ByteStr) : Option (Nat × ByteStr) :=
  match load_int s with
  | none => none
  | some (v, rest) => if v < 0 then none else some (v.toNat, rest)

/-- Translation of `io.rs` `load_string`: read a length then exactly that many
bytes (`read_exact` fails when fewer remain). -/
def load_string (s : ByteStr) : Option (ByteStr × ByteStr) :=
  match load_usize s with
  | none => none
  | some (len, rest) =>
    if rest.length < len then none else some (rest.take len, rest.drop len)

/-- Translation of `var.rs` `enum VarOrigin`. -/
inductive VarOrigin
  | Default
  | Environment
  | EnvironmentOverride
  | File
  | CommandLine
  | Override
  | Automatic
deriving DecidableEq

/-- Translation of `expr.rs` `enum Value`, restricted to the constructors the
claims exercise (`Literal`, `List`, `SymRef`, `VarRef`).  Symbols are
identified with their byte strings (interning is injective, so this is the
quotient the symbol table implements). -/
inductive Val
  | Literal (s : ByteStr)
  | ListV (xs : List Val)
  | SymRef (sym : ByteStr)
  | VarRef (name : Val)

/-- Translation of `var.rs` `enum InnerVar`, restricted to the `Simple` and
`Recursive` constructors (the introspection variables are not involved in the
claims).  The `orig` source text of a recursive variable is not tracked. -/
inductive InnerVar
  | Simple (s : ByteStr)
  | Recursive (v : Val)

/-- Translation of `var.rs` `struct Variable`, keeping the fields the claims
depend on: `origin`, `readonly`, and the value. -/
structure Variable where
  origin : VarOrigin
  readonly : Bool
  value : InnerVar

/-- Lookup in an association list keyed by byte strings (modelling `HashMap`
lookups and the symbol table's indexed `Vec`). -/
def alookup {α : Type} (m : List (ByteStr × α)) (k : ByteStr) : Option α :=
  match m with
  | [] => none
  | (k', v) :: rest => if k = k' then some v else alookup rest k

/-- Insert-or-replace in an association list (mutating a `HashMap`/`Vec`
entry, or inserting a fresh one). -/
def aset {α : Type} (m : List (ByteStr × α)) (k : ByteStr) (v : α) : List (ByteStr × α) :=
  match m with
  | [] => [(k, v)]
  | (k', v') :: rest => if k = k' then (k, v) :: rest else (k', v') :: aset rest k v

/-- Association-list map from symbols to variables, modelling the symbol
table's `symbol_data` and a `Vars` scope. -/
abbrev VarsMap := List (ByteStr × Variable)

/-- Errors surfaced by the modelled evaluator (each corresponds to an
`error!`/`error_loc!` site in the source); `fuel` is the artifact of the
fuelled evaluation and corresponds to no source behaviour. -/
inductive EvalErr
  | fuel
  | recursiveVar
  | readonlyVar
  | unknownVar
  | overridingAutomatic
deriving DecidableEq

/-- Result of `Symtab::set_global_var` (symtab.rs): the final entry, whether
the new variable was installed (in Rust this is implicit in the pointer
identity of the entry), the value written through the `readonly` out
parameter, and the error if one was raised.  `wants_ro_flag` is
`readonly.is_some()` in the source. -/
structure SetGlobalResult where
  entry : Option Variable
  replaced : Bool
  roFlag : Bool
  err : Option EvalErr

/-- Translation of `symtab.rs` `Symtab::set_global_var` acting on the entry
for one symbol. -/
def set_global_var (entry : Option Variable) (var : Variable) (is_override : Bool)
    (wants_ro_flag : Bool) : SetGlobalResult :=
  match entry with
  | some orig =>
    if orig.readonly then
      if wants_ro_flag then ⟨some orig, false, true, none⟩
      else ⟨some orig, false, false, some .readonlyVar⟩
    else if !is_override &&
        (orig.origin == VarOrigin.Override || orig.origin == VarOrigin.EnvironmentOverride) then
      ⟨some orig, false, false, none⟩
    else if orig.origin == VarOrigin.CommandLine && var.origin == VarOrigin.File then
      ⟨some orig, false, false, none⟩
    else if orig.origin == VarOrigin.Automatic then
      ⟨some orig, false, false, some .overridingAutomatic⟩
    else ⟨some var, true, false, none⟩
  | none => ⟨some var, true, false, none⟩

/-- Translation of `var.rs` `Vars::assign` acting on one scope: returns the
new scope, whether the variable was installed, the `readonly` out flag, and
the error if one was raised. -/
def vars_assign (scope : VarsMap) (sym : ByteStr) (var : Variable) :
    VarsMap × Bool × Bool × Option EvalErr :=
  match alookup scope sym with
  | some orig =>
    if orig.readonly then (scope, false, true, none)
    else
      match orig.origin with
      | VarOrigin.Override | VarOrigin.EnvironmentOverride => (scope, false, false, none)
      | VarOrigin.Automatic => (scope, false, false, some .overridingAutomatic)
      | _ => (aset scope sym var, true, false, none)
  | none => (aset scope sym var, true, false, none)

/-- Translation of `stmt.rs` `enum AssignOp`. -/
inductive AssignOp
  | ColonEq
  | Eq
  | PlusEq
  | QuestionEq
deriving DecidableEq

/-- The evaluator state the claims need: the global symbol table, the
rule-specific variable tables (`Evaluator::rule_vars`), the current scope
(`Evaluator::current_scope`, identified by its target symbol), and the
recursion guard `Evaluator::symbols_for_eval`. -/
structure EvState where
  globals : VarsMap
  ruleVars : List (ByteStr × VarsMap)
  currentScope : Option ByteStr
  symbolsForEval : List ByteStr

/-- Scope lookup helper: the `Vars` table of a target (empty if absent). -/
def scopeOf (st : EvState) (target : ByteStr) : VarsMap :=
  (alookup st.ruleVars target).getD []

/-- Translation of `Evaluator::lookup_var`: current scope first, then global. -/
def lookup_var (st : EvState) (name : ByteStr) : Option Variable :=
  match st.currentScope with
  | some target =>
    match alookup (scopeOf st target) name with
    | some v => some v
    | none => alookup st.globals name
  | none => alookup st.globals name

/-- Translation of `Evaluator::lookup_var_in_current_scope`: only the current
scope when one is set, otherwise the global table. -/
def lookup_var_in_current_scope (st : EvState) (name : ByteStr) : Option Variable :=
  match st.currentScope with
  | some target => alookup (scopeOf st target) name
  | none => alookup st.globals name

mutual

/-- Fuelled translation of `expr.rs` `Value::eval` (the fragment of the claims:
`Literal`, `List`, `SymRef`, `VarRef`).  Evaluation reads the bindings and
threads the `symbols_for_eval` guard set, which is returned (on the error path
the pending removals are skipped, as in the source where the `?` operator
propagates the failure). -/
def evalV : Nat → EvState → Val → List ByteStr × Except EvalErr ByteStr
  | 0, st, _ => (st.symbolsForEval, .error .fuel)
  | _ + 1, st, .Literal s => (st.symbolsForEval, .ok s)
  | fuel + 1, st, .ListV xs => evalList fuel st xs
  | fuel + 1, st, .SymRef sym => evalSymRef fuel st sym
  | fuel + 1, st, .VarRef nameV =>
    match evalV fuel st nameV with
    | (sfe, .error e) => (sfe, .error e)
    | (sfe, .ok name) => evalSymRef fuel { st with symbolsForEval := sfe } name
termination_by fuel _ _ => (fuel, 1, 0)

/-- Concatenation of the evaluations of a `Value::List`'s children. -/
def evalList : Nat → EvState → List Val → List ByteStr × Except EvalErr ByteStr
  | _, st, [] => (st.symbolsForEval, .ok [])
  | fuel, st, x :: xs =>
    match evalV fuel st x with
    | (sfe, .error e) => (sfe, .error e)
    | (sfe, .ok s) =>
      match evalList fuel { st with symbolsForEval := sfe } xs with
      | (sfe', .error e) => (sfe', .error e)
      | (sfe', .ok s') => (sfe', .ok (s ++ s'))
termination_by fuel _ xs => (fuel, 2, xs.length)

/-- Translation of the `SymRef` arm of `Value::eval` together with
`Evaluator::lookup_var_for_eval` and `Evaluator::var_eval_complete`: an
undefined variable evaluates to nothing; re-entering a symbol already in
`symbols_for_eval` raises the recursive-variable error; otherwise the symbol
is added to the guard, the variable's contents are evaluated, and the symbol
is removed again. -/
def evalSymRef (fuel : Nat) (st : EvState) (sym : ByteStr) :
    List ByteStr × Except EvalErr ByteStr :=
  match lookup_var st sym with
  | none => (st.symbolsForEval, .ok [])
  | some v =>
    if sym ∈ st.symbolsForEval then (st.symbolsForEval, .error .recursiveVar)
    else
      let st' := { st with symbolsForEval := sym :: st.symbolsForEval }
      match v.value with
      | .Simple s => (st'.symbolsForEval.erase sym, .ok s)
      | .Recursive body =>
        match evalV fuel st' body with
        | (sfe, .error e) => (sfe, .error e)
        | (sfe, .ok s) => (sfe.erase sym, .ok s)
termination_by (fuel, 2, 0)

end

/-- Origin selection at the top of `Evaluator::eval_rhs`. -/
def origin_for (isBootstrap isCommandline isOverride : Bool) : VarOrigin :=
  if isBootstrap then .Default
  else if isCommandline then .CommandLine
  else if isOverride then .Override
  else .File

/-- The interned symbol `.KATI_READONLY`. -/
def kati_readonly_sym : ByteStr := [46, 75, 65, 84, 73, 95, 82, 69, 65, 68, 79, 78, 76, 89]

/-- Translation of the `.KATI_READONLY` loop in `Evaluator::eval_assign`:
mark each named global readonly, failing (with the marks made so far kept)
on an unknown variable. -/
def mark_global_readonly (st : EvState) : List ByteStr → EvState × Option EvalErr
  | [] => (st, none)
  | name :: rest =>
    match alookup st.globals name with
    | none => (st, some .unknownVar)
    | some v =>
      mark_global_readonly
        { st with globals := aset st.globals name { v with readonly := true } } rest

/-- Translation of `Evaluator::mark_vars_readonly` (the `.KATI_READONLY`
rule-specific form), acting on one scope. -/
def mark_scope_readonly (scope : VarsMap) : List ByteStr → VarsMap × Option EvalErr
  | [] => (scope, none)
  | name :: rest =>
    match alookup scope name with
    | none => (scope, some .unknownVar)
    | some v => mark_scope_readonly (aset scope name { v with readonly := true }) rest

/-- Update the scope of one target inside the state. -/
def setScope (st : EvState) (target : ByteStr) (scope : VarsMap) : EvState :=
  { st with ruleVars := aset st.ruleVars target scope }

/-- Tail of `Evaluator::eval_assign` when `needs_assign` holds: install the
new variable through `set_global_var` (with the `readonly` out parameter),
raise the readonly error if flagged, and apply the `is_final` (`$=`) marking
to the just-created variable — which affects the binding only when the
variable was actually installed. -/
def finish_global_new (st : EvState) (lhs : ByteStr) (var : Variable)
    (isOverride isFinal : Bool) : EvState × Option EvalErr :=
  let r := set_global_var (alookup st.globals lhs) var isOverride true
  match r.err with
  | some e => (st, some e)
  | none =>
    if r.roFlag then (st, some .readonlyVar)
    else
      let st :=
        match r.entry with
        | some v => { st with globals := aset st.globals lhs v }
        | none => st
      if isFinal && r.replaced then
        ({ st with globals := aset st.globals lhs { var with readonly := true } }, none)
      else (st, none)

/-- The `is_final` marking on a result that is the existing binding itself
(the `+=` and `?=` paths where `needs_assign` is false). -/
def final_mark_global (st : EvState) (lhs : ByteStr) (isFinal : Bool) :
    EvState × Option EvalErr :=
  if isFinal then
    match alookup st.globals lhs with
    | some v => ({ st with globals := aset st.globals lhs { v with readonly := true } }, none)
    | none => (st, none)
  else (st, none)

/-- Translation of `Evaluator::eval_assign` (global assignment statement),
with `Evaluator::eval_rhs` inlined.  The right-hand side is evaluated with
the fuelled evaluator; deprecation bookkeeping and assignment tracing are not
modelled. -/
def eval_assign (fuel : Nat) (st : EvState) (lhs : ByteStr) (op : AssignOp) (rhsV : Val)
    (isOverride isFinal isBootstrap isCommandline : Bool) : EvState × Option EvalErr :=
  let st := { st with currentScope := none }
  if lhs = kati_readonly_sym then
    match evalV fuel st rhsV with
    | (sfe, .error e) => ({ st with symbolsForEval := sfe }, some e)
    | (sfe, .ok buf) =>
      mark_global_readonly { st with symbolsForEval := sfe } (word_scanner buf)
  else
    let origin := origin_for isBootstrap isCommandline isOverride
    match op with
    | .ColonEq =>
      match evalV fuel st rhsV with
      | (sfe, .error e) => ({ st with symbolsForEval := sfe }, some e)
      | (sfe, .ok buf) =>
        finish_global_new { st with symbolsForEval := sfe } lhs
          ⟨origin, false, .Simple buf⟩ isOverride isFinal
    | .Eq => finish_global_new st lhs ⟨origin, false, .Recursive rhsV⟩ isOverride isFinal
    | .PlusEq =>
      match lookup_var_in_current_scope st lhs with
      | some prev =>
        if prev.readonly then (st, some .readonlyVar)
        else
          match prev.value with
          | .Simple s =>
            match evalV fuel st rhsV with
            | (sfe, .error e) => ({ st with symbolsForEval := sfe }, some e)
            | (sfe, .ok buf) =>
              let st := { st with
                          symbolsForEval := sfe,
                          globals := aset st.globals lhs
                            { prev with value := .Simple (s ++ [32] ++ buf) } }
              final_mark_global st lhs isFinal
          | .Recursive v =>
            let nv := { prev with value := InnerVar.Recursive (.ListV [v, .Literal [32], rhsV]) }
            let st := { st with globals := aset st.globals lhs nv }
            final_mark_global st lhs isFinal
      | none => finish_global_new st lhs ⟨origin, false, .Recursive rhsV⟩ isOverride isFinal
    | .QuestionEq =>
      match lookup_var_in_current_scope st lhs with
      | some _ => final_mark_global st lhs isFinal
      | none => finish_global_new st lhs ⟨origin, false, .Recursive rhsV⟩ isOverride isFinal

/-- Tail of `Evaluator::eval_rule_specific_assign` when `needs_assign` holds:
install the variable in the target scope through `Vars::assign`, raise the
readonly error if flagged, and apply the `is_final` marking to the variable
(affecting the scope binding only when it was installed). -/
def finish_rule_new (st : EvState) (target lhs : ByteStr) (var : Variable)
    (isFinal : Bool) : EvState × Option EvalErr :=
  let (scope', replaced, roFlag, err) := vars_assign (scopeOf st target) lhs var
  let st := setScope st target scope'
  match err with
  | some e => (st, some e)
  | none =>
    if roFlag then (st, some .readonlyVar)
    else if isFinal && replaced then
      (setScope st target (aset (scopeOf st target) lhs { var with readonly := true }), none)
    else (st, none)

/-- The `is_final` marking on an existing scope binding (rule-specific `+=`
and `?=` with an existing previous value). -/
def final_mark_rule (st : EvState) (target lhs : ByteStr) (isFinal : Bool) :
    EvState × Option EvalErr :=
  if isFinal then
    match alookup (scopeOf st target) lhs with
    | some v =>
      (setScope st target (aset (scopeOf st target) lhs { v with readonly := true }), none)
    | none => (st, none)
  else (st, none)

/-- Translation of `Evaluator::eval_rule_specific_assign` for a single target
(the source iterates this body over the target list), with `eval_rhs`
inlined.  The current scope is the target's variable table; it is reset at
the end (and left set on the fatal paths, where the process aborts). -/
def eval_rule_assign (fuel : Nat) (st : EvState) (target lhs : ByteStr) (op : AssignOp)
    (rhsV : Val) (isFinal : Bool) : EvState × Option EvalErr :=
  let st := { st with currentScope := some target }
  let done := fun (st : EvState) (e : Option EvalErr) =>
    match e with
    | some e => (st, some e)
    | none => ({ st with currentScope := none }, none)
  if lhs = kati_readonly_sym then
    match evalV fuel st rhsV with
    | (sfe, .error e) => ({ st with symbolsForEval := sfe }, some e)
    | (sfe, .ok buf) =>
      let st := { st with symbolsForEval := sfe }
      let (scope', e) := mark_scope_readonly (scopeOf st target) (word_scanner buf)
      done (setScope st target scope') e
  else
    match op with
    | .ColonEq =>
      match evalV fuel st rhsV with
      | (sfe, .error e) => ({ st with symbolsForEval := sfe }, some e)
      | (sfe, .ok buf) =>
        let (st, e) := finish_rule_new { st with symbolsForEval := sfe } target lhs
          ⟨.File, false, .Simple buf⟩ isFinal
        done st e
    | .Eq =>
      let (st, e) := finish_rule_new st target lhs ⟨.File, false, .Recursive rhsV⟩ isFinal
      done st e
    | .PlusEq =>
      match lookup_var_in_current_scope st lhs with
      | some prev =>
        if prev.readonly then (st, some .readonlyVar)
        else
          match prev.value with
          | .Simple s =>
            match evalV fuel st rhsV with
            | (sfe, .error e) => ({ st with symbolsForEval := sfe }, some e)
            | (sfe, .ok buf) =>
              let st := { st with symbolsForEval := sfe }
              let st := setScope st target
                (aset (scopeOf st target) lhs { prev with value := .Simple (s ++ [32] ++ buf) })
              let (st, e) := final_mark_rule st target lhs isFinal
              done st e
          | .Recursive v =>
            let st := setScope st target
              (aset (scopeOf st target) lhs
                { prev with value := .Recursive (.ListV [v, .Literal [32], rhsV]) })
            let (st, e) := final_mark_rule st target lhs isFinal
            done st e
      | none =>
        let (st, e) := finish_rule_new st target lhs ⟨.File, false, .Recursive rhsV⟩ isFinal
        done st e
    | .QuestionEq =>
      match lookup_var_in_current_scope st lhs with
      | some _ =>
        let (st, e) := final_mark_rule st target lhs isFinal
        done st e
      | none =>
        let (st, e) := finish_rule_new st target lhs ⟨.File, false, .Recursive rhsV⟩ isFinal
        done st e

/-- The operations of claim C2: global assignment statements (covering `:=`,
`=`, `+=`, `?=`, `override`, `$=` finalization, and `.KATI_READONLY`
marking via the left-hand side) and rule-specific assignments. -/
inductive EvalOp
  | assign (lhs : ByteStr) (op : AssignOp) (rhs : Val)
      (isOverride isFinal isBootstrap isCommandline : Bool)
  | ruleAssign (target lhs : ByteStr) (op : AssignOp) (rhs : Val) (isFinal : Bool)

/-- One evaluator step. -/
def evalStep (fuel : Nat) (st : EvState) : EvalOp → EvState × Option EvalErr
  | .assign lhs op rhs io fi b c => eval_assign fuel st lhs op rhs io fi b c
  | .ruleAssign target lhs op rhs fi => eval_rule_assign fuel st target lhs op rhs fi

/-- Run a sequence of operations; a fatal error aborts the run (as in the
source, where every `error!` terminates the process). -/
def evalRun (fuel : Nat) (st : EvState) : List EvalOp → EvState
  | [] => st
  | op :: ops =>
    match evalStep fuel st op with
    | (st', none) => evalRun fuel st' ops
    | (st', some _) => st'

/-- Readonly bit recorded in a variables map (false when unbound). -/
def roOf (m : VarsMap) (sym : ByteStr) : Bool :=
  match alookup m sym with
  | some v => v.readonly
  | none => false

/-- Readonly bit of a symbol's global binding (false when unbound). -/
def globalReadonly (st : EvState) (sym : ByteStr) : Bool := roOf st.globals sym

/-- Readonly bit of a symbol's binding in a target's rule scope. -/
def ruleReadonly (st : EvState) (target sym : ByteStr) : Bool := roOf (scopeOf st target) sym

/-- Evolution of a variables map that never clears a readonly bit. -/
def MapMono (m m' : VarsMap) : Prop :=
  ∀ sym, roOf m sym = true → roOf m' sym = true

/-- Evolution of an evaluator state that never clears a readonly bit in any
rule scope. -/
def ScopesMono (st st' : EvState) : Prop :=
  ∀ target sym, roOf (scopeOf st target) sym = true → roOf (scopeOf st' target) sym = true

/-- Translation of `strutil.rs` `basename`: everything after the last `/`,
except that a `/` at index 0 (or no `/` at all) returns the input unchanged. -/
def basename (s : ByteStr) : ByteStr :=
  match memrchr 47 s with
  | none => s
  | some found => if found = 0 then s else s.drop (found + 1)

/-- Scan bracket-expression items until the closing `]` (93), reporting
whether byte `c` matched any item (`a-b` ranges use 45 as the dash) and
returning the pattern rest after the `]`; `none` when unterminated. -/
def bracketScan : ByteStr → Nat → Option (Bool × ByteStr)
  | [], _ => none
  | 93 :: rest, _ => some (false, rest)
  | lo :: 45 :: hi :: rest, c =>
    if hi = 93 then
      -- a trailing dash is a literal member and the `]` closes the set
      some (lo = c || 45 = c, rest)
    else
      match bracketScan rest c with
      | some (found, rest') => some ((lo ≤ c && c ≤ hi) || found, rest')
      | none => none
  | a :: rest, c =>
    match bracketScan rest c with
    | some (found, rest') => some (a = c || found, rest')
    | none => none

/-- Bracket-expression matcher for the `fnmatch` model: given the pattern
bytes after `[`, decide whether byte `c` is in the set (honouring a leading
`!` or `^` negation) and return the pattern rest after the closing `]`;
`none` when the bracket is unterminated (the `[` is then treated as a
literal byte, as glibc does). -/
def bracketMatch (p : ByteStr) (c : Nat) : Option (Bool × ByteStr) :=
  let negP : Bool × ByteStr :=
    match p with
    | 33 :: rest => (true, rest)
    | 94 :: rest => (true, rest)
    | _ => (false, p)
  match bracketScan negP.2 c with
  | some (found, rest) => some (if negP.1 then !found else found, rest)
  | none => none

/-- Model of libc `fnmatch` pattern matching without flags, over byte
strings: `?` (63) matches any single byte, `*` (42) matches any byte
sequence, a bracket expression (91/93) matches one byte from its set, `\\`
(92) escapes the next pattern byte, and any other byte matches itself.  This
models the external libc function the source calls through
`fileutil::fnmatch`. -/
def fnmatchCore : ByteStr → ByteStr → Bool
  | [], [] => true
  | [], _ :: _ => false
  | 42 :: p, s =>
    fnmatchCore p s ||
      match s with
      | [] => false
      | _ :: s' => fnmatchCore (42 :: p) s'
  | 63 :: p, _ :: s => fnmatchCore p s
  | 91 :: p, c :: s =>
    (match bracketMatch p c with
     | some (found, rest) => found && fnmatchCore rest s
     | none => 91 = c && fnmatchCore p s)
  | 92 :: e :: p, c :: s => e = c && fnmatchCore p s
  | a :: p, c :: s => a = c && fnmatchCore p s
  | _ :: _, [] => false
termination_by p s => (s.length, p.length)

/-- The glibc flag value `FNM_PERIOD` (`1 << 2`). -/
def FNM_PERIOD : Nat := 4

/-- Model of libc `fnmatch` with flags, as wrapped by `fileutil.rs`
`fnmatch` (which returns whether the match succeeded).  Only `FNM_PERIOD`
is modelled: with it set, a leading period in the string must be matched
explicitly by a literal (possibly escaped) period in the pattern. -/
def fnmatch (pat s : ByteStr) (flags : Nat) : Bool :=
  if flags % 8 / 4 = 1 ∧ s.head? = some 46 ∧
      ¬(pat.head? = some 46 ∨ pat.take 2 = [92, 46]) then false
  else fnmatchCore pat s

/-- Translation of `find.rs` `enum FindCond` (the `has_wildcard` cache of
`Name` is omitted; it does not affect `is_true`). -/
inductive FindCond
  | Name (pat : ByteStr)
  | Typ (t : Nat)
  | Not (c : FindCond)
  | And (c1 c2 : FindCond)
  | Or (c1 c2 : FindCond)

/-- Translation of `find.rs` `FindCond::is_true` (file types are abstracted
to a numeric tag; only equality on them is used).  Note the `Name` arm calls
`fnmatch(pat, basename(path), 0)` — with flags `0`. -/
def FindCond.is_true : FindCond → ByteStr → Nat → Bool
  | .Name pat, path, _ => fnmatch pat (basename path) 0
  | .Typ t, _, typ => typ == t
  | .Not c, path, typ => !c.is_true path typ
  | .And c1 c2, path, typ => c1.is_true path typ && c2.is_true path typ
  | .Or c1 c2, path, typ => c1.is_true path typ || c2.is_true path typ

/-- The wildcard-component matcher of `find.rs` `DirentNode::find_nodes`
(line 318): `fnmatch(pattern, name, FNM_PERIOD)`. -/
def find_nodes_wildcard_matches (pattern name : ByteStr) : Bool :=
  fnmatch pattern name FNM_PERIOD

/-- Translation of `regen.rs` `enum CommandOp`. -/
inductive CommandOp
  | Shell
  | Find
  | Read
  | ReadMissing
  | Write
  | Append
deriving DecidableEq

/-- The fields of `regen.rs` `struct ShellResult` that the file-operation
records use. -/
structure ShellResult where
  op : CommandOp
  cmd : ByteStr
  result : ByteStr

/-- A file system snapshot: a partial map from paths to contents, plus the
set of paths whose mtime is newer than the stamp's generation time.  This is
the state `check_shell_result` reads and writes for the file-op records. -/
structure FileSys where
  contents : List (ByteStr × ByteStr)
  newerThanGen : List ByteStr

/-- Contents of a path, if the file exists. -/
def FileSys.read (fs : FileSys) (path : ByteStr) : Option ByteStr :=
  alookup fs.contents path

/-- Store new contents for a path. -/
def FileSys.store (fs : FileSys) (path : ByteStr) (data : ByteStr) : FileSys :=
  { fs with contents := aset fs.contents path data }

/-- Model of `OpenOptions::new().write(true).create(true).append(append)`
followed by `write_all(data)`: append mode appends; otherwise the data is
written at offset 0 over the existing contents, which are NOT truncated —
any existing tail beyond the written data survives. -/
def open_write_all (fs : FileSys) (path : ByteStr) (append : Bool) (data : ByteStr) : FileSys :=
  let old := (fs.read path).getD []
  if append then fs.store path (old ++ data)
  else fs.store path (data ++ old.drop data.length)

/-- Model of `func.rs` `file_write_func`'s file update (the original
`$(file >path)` / `$(file >>path)` operation):
`File::options().write(true).append(append).truncate(!append).create(true)`
then `write_all` — truncating first in the non-append case. -/
def file_write_func (fs : FileSys) (path : ByteStr) (append : Bool) (data : ByteStr) : FileSys :=
  let old := (fs.read path).getD []
  if append then fs.store path (old ++ data)
  else fs.store path data

/-- Translation of `regen.rs` `StampChecker::check_shell_result` for the
file-operation records (`ReadMissing`, `Read`, `Write`, `Append`).  The
returned boolean is "needs regeneration"; the `Shell`/`Find` replay tail of
the source function (which spawns processes) is out of scope and returns the
state unchanged here.  The `dump_kati_stamp` logging is not modelled. -/
def check_shell_result (fs : FileSys) (sr : ShellResult) : FileSys × Bool :=
  if sr.op = CommandOp.ReadMissing then
    (fs, (fs.read sr.cmd).isSome)
  else if sr.op = CommandOp.Read then
    (fs, (fs.read sr.cmd).isSome && decide (sr.cmd ∈ fs.newerThanGen))
  else if sr.op = CommandOp.Write ∨ sr.op = CommandOp.Append then
    (open_write_all fs sr.cmd (sr.op = CommandOp.Append) sr.result, false)
  else (fs, false)

/-- One iteration body of the `normalize_path` loop in `strutil.rs`,
processing the component `dir` against the output buffer `ret`.  Byte 46 is
`.`, byte 47 is `/`. -/
def npStep (ret dir : ByteStr) : ByteStr :=
  if dir = [46] ∨ (dir = [46, 46] ∧ ret = [47]) then ret
  else if dir = [46, 46] ∧ ret ≠ [] ∧ ret ≠ [46, 46] ∧ ¬[47, 46, 46].isSuffixOf ret then
    match memrchr 47 ret with
    | some index => if index = 0 then ret.take 1 else ret.take index
    | none => []
  else if dir ≠ [] then
    (if ret ≠ [] ∧ ret.getLast? ≠ some 47 then ret ++ [47] else ret) ++ dir
  else ret

/-- The `while !o.is_empty()` loop of `normalize_path`: split off the part up
to the first `/` (the whole rest when there is none), process it with
`npStep`, and continue with what follows the `/`. -/
def npLoop (o ret : ByteStr) : ByteStr :=
  if h : o = [] then ret
  else
    let idx := o.findIdx (· == 47)
    npLoop (o.drop (idx + 1)) (npStep ret (o.take idx))
termination_by o.length
decreasing_by
  have hlen : 0 < o.length := List.length_pos.mpr h
  simp only [List.length_drop]
  omega

/-- Translation of `strutil.rs` `normalize_path`. -/
def normalize_path (o : ByteStr) : ByteStr :=
  if o = [] then []
  else if o.head? = some 47 then npLoop (o.drop 1) [47]
  else npLoop o []

/-- Join path components with `/` separators (no leading or trailing `/`). -/
def joinSlash : List ByteStr → ByteStr
  | [] => []
  | [c] => c
  | c :: cs => c ++ 47 :: joinSlash cs

/-- Render a parsed path: an optional leading `/` (absolute paths) followed
by the components joined with `/`. -/
def render (abs : Bool) (cs : List ByteStr) : ByteStr :=
  if abs then 47 :: joinSlash cs else joinSlash cs

/-- A good normalized-path component: non-empty, containing no `/`, and not
`.`. -/
def GoodComp (c : ByteStr) : Prop := c ≠ [] ∧ 47 ∉ c ∧ c ≠ [46]

/-- A normalized component list: every component is good, the `..`
components form a prefix of the list, and an absolute path has none. -/
def Norm (abs : Bool) (cs : List ByteStr) : Prop :=
  (∀ c ∈ cs, GoodComp c) ∧
    (∃ k rest, cs = List.replicate k [46, 46] ++ rest ∧ [46, 46] ∉ rest) ∧
    (abs = true → [46, 46] ∉ cs)

/-! Helper lemmas. -/

theorem memchr_cons (c a : Nat) (t : ByteStr) :
    memchr c (a :: t) = if a = c then some 0 else (memchr c t).map (· + 1) := by
  simp only [memchr, List.findIdx?_cons]
  by_cases h : a = c <;> simp [h]

theorem memchr_eq_none (c : Nat) (t : ByteStr) : memchr c t = none ↔ c ∉ t := by
  unfold memchr
  rw [List.findIdx?_eq_none_iff]
  constructor
  · intro h hc
    have := h c hc
    simp at this
  · intro h x hx
    simp only [beq_eq_false_iff_ne, ne_eq]
    intro hxc
    exact h (hxc ▸ hx)

/-! Claim C3. -/

/-- Claim C3 counterexample: the claim asserts that a target equal to the
pattern's literal prefix concatenated with its literal suffix (empty stem) is
not matched; but the pattern `foo%` matches the target `foo` (the source's
own unit test `test_pattern_matches` asserts this), and the stem there is
empty. -/
theorem c3_counterexample :
    (Pattern.new [102, 111, 111, 37]).matches [102, 111, 111] = true ∧
      (Pattern.new [102, 111, 111, 37]).stem [102, 111, 111] = [] := by
  constructor <;> rfl

/-- Claim C3 (amended): `Pattern::matches` does not require a non-empty stem:
for every pattern containing a `%`, the target consisting of exactly the
pattern's literal prefix concatenated with its literal suffix is matched (and
its stem is empty). -/
theorem c3_empty_stem_is_matched (pat : ByteStr) (pi : Nat)
    (h : (Pattern.new pat).percent_index = some pi) :
    (Pattern.new pat).matches (pat.take pi ++ pat.drop (pi + 1)) = true := by
  unfold Pattern.matches
  rw [h]
  unfold Pattern.match_impl Pattern.new
  simp only
  rw [Bool.and_eq_true, List.isPrefixOf_iff_prefix, List.isSuffixOf_iff_suffix]
  exact ⟨List.prefix_append _ _, List.suffix_append _ _⟩

/-- Claim C3 witness: the amended theorem applied to the pattern `foo%` at
percent index 3. -/
theorem c3_witness :
    (Pattern.new [102, 111, 111, 37]).matches
      (([102, 111, 111, 37] : ByteStr).take 3 ++ ([102, 111, 111, 37] : ByteStr).drop 4) = true :=
  c3_empty_stem_is_matched [102, 111, 111, 37] 3 (by rfl)

/-! Claim C4. -/

/-- Claim C4 counterexample: the target `.c.` begins with `.`, has exactly
two `.` separators, but its second dotted component is empty — so by the
claim it must not be a suffix rule; the code classifies it as one. -/
theorem c4_counterexample :
    is_suffix_rule [46, 99, 46] = true ∧ suffix_rule_spec [46, 99, 46] = false := by
  constructor <;> rfl

/-- Claim C4 amended semantics, written from the corrected spec wording: a
target is a suffix rule iff it begins with `.`, contains exactly two `.`
in total, and the first dotted component is non-empty; the second component
may be empty. -/
def suffix_rule_amended (s : ByteStr) : Bool :=
  s.head? == some 46 && s.count 46 == 2 && !((s.drop 1).head? == some 46)

theorem c4_count_helper (t : ByteStr) :
    (match memchr 46 t with
     | some d => (memchr 46 (t.drop (d + 1))).isNone
     | none => false) = (t.count 46 == 1) := by
  induction t with
  | nil => rfl
  | cons a t ih =>
    rw [memchr_cons]
    by_cases h : a = 46
    · subst h
      rw [if_pos rfl]
      show (memchr 46 t).isNone = ((46 :: t).count 46 == 1)
      rw [List.count_cons_self]
      rcases hopt : memchr 46 t with _ | d
      · have hmem : (46 : Nat) ∉ t := (memchr_eq_none 46 t).mp hopt
        have hc : t.count 46 = 0 := List.count_eq_zero.mpr hmem
        simp [hc]
      · have hmem : (46 : Nat) ∈ t := by
          by_contra hn
          rw [(memchr_eq_none 46 t).mpr hn] at hopt
          cases hopt
        have hc : t.count 46 ≠ 0 := fun h0 => (List.count_eq_zero.mp h0) hmem
        rw [Bool.eq_iff_iff]
        simp only [Option.isNone_some, Bool.false_eq_true, false_iff, beq_iff_eq]
        omega
    · rw [if_neg h]
      have hcnt : (a :: t).count 46 = t.count 46 :=
        List.count_cons_of_ne (by omega) t
      rcases hopt : memchr 46 t with _ | d
      · show false = ((a :: t).count 46 == 1)
        rw [hcnt, ← ih, hopt]
      · show (memchr 46 ((a :: t).drop (d + 1 + 1))).isNone = ((a :: t).count 46 == 1)
        rw [List.drop_succ_cons, hcnt, ← ih, hopt]

/-- Claim C4 (amended): the planner classifies a target as a suffix rule iff
it begins with `.`, contains exactly two `.` bytes, and the first dotted
component is non-empty; unlike the claim's statement, the second dotted
component is allowed to be empty (`.c.` is classified as a suffix rule). -/
theorem c4_suffix_rule_iff (s : ByteStr) : is_suffix_rule s = suffix_rule_amended s := by
  match s with
  | [] => rfl
  | a :: t =>
    by_cases ha : a = 46
    · subst ha
      match t with
      | [] => rfl
      | b :: t' =>
        by_cases hb : b = 46
        · subst hb
          -- second byte is a dot: not a special target, and the amended
          -- first-component condition fails; both sides are false
          have hL : is_suffix_rule (46 :: 46 :: t') = false := by
            unfold is_suffix_rule is_special_target
            simp [List.isPrefixOf]
          have hR : suffix_rule_amended (46 :: 46 :: t') = false := by
            unfold suffix_rule_amended
            simp
          rw [hL, hR]
        · have h46b : ((46 : Nat) == b) = false := by
            rw [beq_eq_false_iff_ne]
            omega
          have hspecial : is_special_target (46 :: b :: t') = true := by
            unfold is_special_target
            show (((46 : Nat) == 46) && List.isPrefixOf [] (b :: t') &&
              !(((46 : Nat) == b) && List.isPrefixOf [] t')) = true
            rw [h46b]
            rfl
          have hL : is_suffix_rule (46 :: b :: t') =
              (match memchr 46 (b :: t') with
               | some dot_index => (memchr 46 ((b :: t').drop (dot_index + 1))).isNone
               | none => false) := by
            unfold is_suffix_rule
            rw [hspecial]
            rfl
          rw [hL, c4_count_helper]
          have hcnt1 : (b :: t').count 46 = t'.count 46 :=
            List.count_cons_of_ne (by omega) t'
          have hcnt2 : (46 :: b :: t' : ByteStr).count 46 = t'.count 46 + 1 := by
            rw [List.count_cons_self, hcnt1]
          unfold suffix_rule_amended
          have e2 : (((46 :: b :: t' : ByteStr).drop 1).head? == some 46) = false := by
            rw [beq_eq_false_iff_ne]
            simp [hb]
          rw [hcnt1, hcnt2, e2]
          rw [Bool.eq_iff_iff]
          simp only [List.head?_cons, beq_self_eq_true, Bool.true_and, Bool.not_false,
            Bool.and_true, beq_iff_eq]
          omega
    · have h46a : ((46 : Nat) == a) = false := by
        rw [beq_eq_false_iff_ne]
        omega
      have hL : is_suffix_rule (a :: t) = false := by
        unfold is_suffix_rule is_special_target
        show (if !(((46 : Nat) == a) && List.isPrefixOf [] t &&
            !List.isPrefixOf [46] ((a :: t).drop 1)) then false else _) = false
        rw [h46a]
        rfl
      have hR : suffix_rule_amended (a :: t) = false := by
        unfold suffix_rule_amended
        have : ((a :: t : ByteStr).head? == some 46) = false := by
          rw [beq_eq_false_iff_ne]
          simp [ha]
        rw [this]
        rfl
      rw [hL, hR]

/-! Claim C10. -/

/-- Claim C10: stamp-file string serialization round-trips.  For every byte
string whose length is representable as a non-negative `i32`, `load_string`
run on the output of `dump_string` (followed by any further stream contents)
returns exactly the original string and leaves the rest of the stream, and
the length prefix is the little-endian 4-byte encoding of the length. -/
theorem load_int_cons (b0 b1 b2 b3 : Nat) (rest : ByteStr) :
    load_int (b0 :: b1 :: b2 :: b3 :: rest) =
      some
        (if b0 % 256 + 256 * (b1 % 256) + 65536 * (b2 % 256) + 16777216 * (b3 % 256) <
            2147483648 then
          ((b0 % 256 + 256 * (b1 % 256) + 65536 * (b2 % 256) + 16777216 * (b3 % 256) : Nat) : Int)
        else
          ((b0 % 256 + 256 * (b1 % 256) + 65536 * (b2 % 256) + 16777216 * (b3 % 256) : Nat) : Int)
            - 4294967296,
        rest) := rfl

theorem c10_dump_load_string (s extra : ByteStr) (h : s.length < 2147483648) :
    load_string (dump_string s ++ extra) = some (s, extra) ∧
      dump_string s = toLeBytes4 s.length ++ s := by
  have hkey : i32_bits (usize_as_i32 s.length) = s.length := by
    unfold i32_bits usize_as_i32
    rw [if_pos (by omega)]
    omega
  have hdump : dump_string s = toLeBytes4 s.length ++ s := by
    unfold dump_string dump_usize dump_int
    rw [hkey]
  refine ⟨?_, hdump⟩
  rw [hdump]
  unfold toLeBytes4
  rw [List.append_assoc]
  show load_string (s.length % 256 :: s.length / 256 % 256 :: s.length / 65536 % 256 ::
    s.length / 16777216 % 256 :: (s ++ extra)) = some (s, extra)
  unfold load_string load_usize
  rw [load_int_cons]
  have hrec : s.length % 256 % 256 + 256 * (s.length / 256 % 256 % 256) +
      65536 * (s.length / 65536 % 256 % 256) + 16777216 * (s.length / 16777216 % 256 % 256) =
      s.length := by omega
  rw [hrec, if_pos h]
  simp only
  rw [if_neg (by exact Int.not_lt.mpr (Int.natCast_nonneg s.length)), Int.toNat_natCast]
  show (if (s ++ extra).length < s.length then none
    else some ((s ++ extra).take s.length, (s ++ extra).drop s.length)) = some (s, extra)
  rw [if_neg (by simp [List.length_append])]
  rw [List.take_left, List.drop_left]

/-- Claim C10 witness: the round-trip theorem applied to the two-byte string
`hi` with a non-empty stream remainder. -/
theorem c10_witness :
    load_string (dump_string [104, 105] ++ [7]) = some ([104, 105], [7]) ∧
      dump_string [104, 105] = toLeBytes4 ([104, 105] : ByteStr).length ++ [104, 105] :=
  c10_dump_load_string [104, 105] [7] (by decide)

/-! Claim C1. -/

/-- Claim C1 counterexample: the claim says that in every non-readonly case
other than the two precedence carve-outs the new binding replaces the old
one; but when the existing binding has origin `automatic` (not readonly, not
override, not the command-line/file pair), `set_global_var` raises a fatal
error and leaves the binding unchanged instead of replacing it. -/
theorem c1_counterexample :
    set_global_var (some ⟨.Automatic, false, .Simple []⟩) ⟨.File, false, .Simple [120]⟩
        false true =
      ⟨some ⟨.Automatic, false, .Simple []⟩, false, false, some .overridingAutomatic⟩ := rfl

/-- Claim C1 (amended): for every global variable assignment with an existing
binding, (a) if the binding has origin override or environment-override and
the assignment is not an override directive, it stays unchanged; (b) if the
binding has origin command-line and the new variable has origin file, it
stays unchanged; (c) if the binding has origin automatic (and is not
readonly), the assignment is a fatal error and the binding stays unchanged;
and (d) in all other non-readonly cases the new binding replaces the old
one. -/
theorem c1_set_global_var_precedence (orig var : Variable) (io wf : Bool) :
    (orig.readonly = false → io = false →
        orig.origin = .Override ∨ orig.origin = .EnvironmentOverride →
        set_global_var (some orig) var io wf = ⟨some orig, false, false, none⟩) ∧
      (orig.readonly = false → orig.origin = .CommandLine → var.origin = .File →
        set_global_var (some orig) var io wf = ⟨some orig, false, false, none⟩) ∧
      (orig.readonly = false → orig.origin = .Automatic →
        set_global_var (some orig) var io wf =
          ⟨some orig, false, false, some .overridingAutomatic⟩) ∧
      (orig.readonly = false →
        (io = true ∨ orig.origin ≠ .Override ∧ orig.origin ≠ .EnvironmentOverride) →
        ¬(orig.origin = .CommandLine ∧ var.origin = .File) →
        orig.origin ≠ .Automatic →
        set_global_var (some orig) var io wf = ⟨some var, true, false, none⟩) := by
  refine ⟨?_, ?_, ?_, ?_⟩
  · intro hro hio hor
    have hov : (orig.origin == VarOrigin.Override ||
        orig.origin == VarOrigin.EnvironmentOverride) = true := by
      rcases hor with h | h <;> simp [h]
    simp [set_global_var, hro, hio, hov]
  · intro hro hcl hvf
    simp [set_global_var, hro, hcl, hvf]
  · intro hro hauto
    simp [set_global_var, hro, hauto]
  · intro hro hnotor hnotclf hnauto
    have h1 : (!io && (orig.origin == VarOrigin.Override ||
        orig.origin == VarOrigin.EnvironmentOverride)) = false := by
      rcases hnotor with h | ⟨ha, hb⟩
      · simp [h]
      · simp only [Bool.and_eq_false_iff]
        right
        simp [ha, hb]
    have h2 : (orig.origin == VarOrigin.CommandLine && var.origin == VarOrigin.File) = false := by
      by_cases hc : orig.origin = VarOrigin.CommandLine
      · have : var.origin ≠ VarOrigin.File := fun hf => hnotclf ⟨hc, hf⟩
        simp [this]
      · simp [hc]
    have h3 : (orig.origin == VarOrigin.Automatic) = false := by simp [hnauto]
    simp [set_global_var, hro, h1, h2, h3]

/-- Claim C1 witness: the amended characterization applied at concrete
inputs — an override-origin binding survives a non-override file assignment
(first conjunct), and a file-origin binding is replaced (last conjunct). -/
theorem c1_witness :
    set_global_var (some ⟨.Override, false, .Simple [1]⟩) ⟨.File, false, .Simple [2]⟩
          false true =
        ⟨some ⟨.Override, false, .Simple [1]⟩, false, false, none⟩ ∧
      set_global_var (some ⟨.File, false, .Simple [1]⟩) ⟨.File, false, .Simple [2]⟩
          false true =
        ⟨some ⟨.File, false, .Simple [2]⟩, true, false, none⟩ :=
  ⟨(c1_set_global_var_precedence ⟨.Override, false, .Simple [1]⟩ ⟨.File, false, .Simple [2]⟩
      false true).1 rfl rfl (Or.inl rfl),
    (c1_set_global_var_precedence ⟨.File, false, .Simple [1]⟩ ⟨.File, false, .Simple [2]⟩
      false true).2.2.2 rfl (Or.inr ⟨by decide, by decide⟩)
      (fun h => by cases h.1) (by decide)⟩

/-! Claim C6. -/

/-- Claim C6 counterexample: the claim says each `-name` condition is
evaluated by calling `fnmatch` with `FNM_PERIOD` on the basename; but
`FindCond::is_true` calls `fnmatch` with flags `0`: the pattern `*` matches
the path `dir/.hidden` (basename `.hidden`) even though with `FNM_PERIOD`
it would not. -/
theorem c6_counterexample :
    FindCond.is_true (.Name [42]) [100, 105, 114, 47, 46, 104, 105, 100, 100, 101, 110] 0 =
        true ∧
      fnmatch [42] (basename [100, 105, 114, 47, 46, 104, 105, 100, 100, 101, 110])
        FNM_PERIOD = false := by
  refine ⟨?_, rfl⟩
  show fnmatch [42] [46, 104, 105, 100, 100, 101, 110] 0 = true
  unfold fnmatch
  rw [if_neg (by simp [FNM_PERIOD])]
  simp [fnmatchCore]

theorem fnmatchCore_star (s : ByteStr) : fnmatchCore [42] s = true := by
  induction s with
  | nil => simp [fnmatchCore]
  | cons c s ih => simp [fnmatchCore, ih]

/-- Claim C6 (amended): in the find emulator, a `-name` condition is
evaluated by calling `fnmatch` with flags `0` (not `FNM_PERIOD`) on the
basename of the candidate path — so a leading `.` in a file name IS matched
by `*` (second conjunct).  `FNM_PERIOD` is used only when expanding wildcard
path components in `find_nodes` (third conjunct). -/
theorem c6_name_uses_flags_zero (pat path : ByteStr) (typ : Nat) :
    FindCond.is_true (.Name pat) path typ = fnmatch pat (basename path) 0 ∧
      FindCond.is_true (.Name [42]) path typ = true ∧
      find_nodes_wildcard_matches pat path = fnmatch pat path FNM_PERIOD := by
  refine ⟨rfl, ?_, rfl⟩
  show fnmatch [42] (basename path) 0 = true
  unfold fnmatch
  rw [if_neg (by simp [FNM_PERIOD])]
  exact fnmatchCore_star _

/-! Claim C7. -/

/-- Claim C7 (code bug): the claim — matching the behaviour of the original
`$(file >path)` write in `func.rs`, which truncates — says a `Write` record
is replayed by truncating the file and writing the recorded contents.  The
regen replay in `check_shell_result` opens the file with
`write(true).create(true)` but without `truncate`, so writing recorded
contents `xy` over an on-disk file `f` containing `abcd` leaves `xycd`,
not `xy` (while the check still reports no regeneration needed, and the
original `file_write_func` would have produced exactly `xy`). -/
theorem c7_write_replay_does_not_truncate :
    check_shell_result ⟨[([102], [97, 98, 99, 100])], []⟩ ⟨.Write, [102], [120, 121]⟩ =
        (⟨[([102], [120, 121, 99, 100])], []⟩, false) ∧
      (file_write_func ⟨[([102], [97, 98, 99, 100])], []⟩ [102] false [120, 121]).read [102] =
        some [120, 121] ∧
      ([120, 121, 99, 100] : ByteStr) ≠ [120, 121] := by
  refine ⟨rfl, rfl, by decide⟩

/-! Claim C8. -/

theorem bytesLt_nil_right (y : ByteStr) : bytesLt y [] = false := by
  cases y <;> rfl

theorem bytesLt_irrefl (a : ByteStr) : bytesLt a a = false := by
  induction a with
  | nil => rfl
  | cons x xs ih =>
    show (if x < x then true else if x < x then false else bytesLt xs xs) = false
    simp [ih]

theorem bytesLt_cons_iff {x y : Nat} {xs ys : ByteStr} :
    bytesLt (x :: xs) (y :: ys) = true ↔ x < y ∨ (x = y ∧ bytesLt xs ys = true) := by
  show (if x < y then true else if y < x then false else bytesLt xs ys) = true ↔ _
  by_cases h1 : x < y
  · simp [h1]
  · by_cases h2 : y < x
    · simp [h1, h2]
      omega
    · have hxy : x = y := by omega
      simp [h1, h2, hxy]

theorem bytesLt_trans {a b c : ByteStr} (h1 : bytesLt a b = true) (h2 : bytesLt b c = true) :
    bytesLt a c = true := by
  induction a generalizing b c with
  | nil =>
    cases c with
    | nil => rw [bytesLt_nil_right] at h2; cases h2
    | cons z zs => rfl
  | cons x xs ih =>
    cases b with
    | nil => rw [bytesLt_nil_right] at h1; cases h1
    | cons y ys =>
      cases c with
      | nil => rw [bytesLt_nil_right] at h2; cases h2
      | cons z zs =>
        rcases bytesLt_cons_iff.mp h1 with hxy | ⟨rfl, hxs⟩ <;>
          rcases bytesLt_cons_iff.mp h2 with hyz | ⟨rfl, hys⟩
        · exact bytesLt_cons_iff.mpr (Or.inl (by omega))
        · exact bytesLt_cons_iff.mpr (Or.inl hxy)
        · exact bytesLt_cons_iff.mpr (Or.inl hyz)
        · exact bytesLt_cons_iff.mpr (Or.inr ⟨rfl, ih hxs hys⟩)

theorem bytesLt_trichotomy (a b : ByteStr) :
    bytesLt a b = true ∨ bytesLt b a = true ∨ a = b := by
  induction a generalizing b with
  | nil =>
    cases b with
    | nil => exact Or.inr (Or.inr rfl)
    | cons y ys => exact Or.inl rfl
  | cons x xs ih =>
    cases b with
    | nil => exact Or.inr (Or.inl rfl)
    | cons y ys =>
      rcases Nat.lt_trichotomy x y with h | h | h
      · exact Or.inl (bytesLt_cons_iff.mpr (Or.inl h))
      · subst h
        rcases ih ys with h | h | h
        · exact Or.inl (bytesLt_cons_iff.mpr (Or.inr ⟨rfl, h⟩))
        · exact Or.inr (Or.inl (bytesLt_cons_iff.mpr (Or.inr ⟨rfl, h⟩)))
        · exact Or.inr (Or.inr (by rw [h]))
      · exact Or.inr (Or.inl (bytesLt_cons_iff.mpr (Or.inl h)))

theorem bytesLe_total (a b : ByteStr) : (bytesLe a b || bytesLe b a) = true := by
  unfold bytesLe
  rcases hab : bytesLt a b with _ | _ <;> rcases hba : bytesLt b a with _ | _ <;> simp
  exact absurd (bytesLt_trans hab hba) (by rw [bytesLt_irrefl]; simp)

theorem bytesLe_trans {a b c : ByteStr} (h1 : bytesLe a b = true) (h2 : bytesLe b c = true) :
    bytesLe a c = true := by
  unfold bytesLe at *
  rcases hca : bytesLt c a with _ | _
  · simp
  · exfalso
    rcases bytesLt_trichotomy a b with h | h | rfl
    · have := bytesLt_trans hca h
      rw [this] at h2
      simp at h2
    · rw [h] at h1
      simp at h1
    · rw [hca] at h2
      simp at h2

theorem bytesLe_antisymm {a b : ByteStr} (h1 : bytesLe a b = true) (h2 : bytesLe b a = true) :
    a = b := by
  unfold bytesLe at *
  rcases bytesLt_trichotomy a b with h | h | h
  · rw [h] at h2
    simp at h2
  · rw [h] at h1
    simp at h1
  · exact h

theorem bytesLe_nil (y : ByteStr) : bytesLe [] y = true := by
  unfold bytesLe
  rw [bytesLt_nil_right]
  rfl

theorem sortDedupLoop_cons (prev t : ByteStr) (ts : List ByteStr) :
    sortDedupLoop prev (t :: ts) =
      if t = prev then sortDedupLoop prev ts else t :: sortDedupLoop t ts := by
  show (if (t == prev) = true then sortDedupLoop prev ts else t :: sortDedupLoop t ts) = _
  by_cases h : t = prev <;> simp [h]

theorem sortDedupLoop_sublist (prev : ByteStr) (ts : List ByteStr) :
    (sortDedupLoop prev ts).Sublist ts := by
  induction ts generalizing prev with
  | nil => exact List.Sublist.refl []
  | cons t ts ih =>
    rw [sortDedupLoop_cons]
    by_cases h : t = prev
    · rw [if_pos h]
      exact (ih prev).trans (List.sublist_cons_self t ts)
    · rw [if_neg h]
      exact (ih t).cons₂ t

theorem mem_sortDedupLoop_of_mem {x : ByteStr} {ts : List ByteStr} (prev : ByteStr)
    (hx : x ∈ ts) : x ∈ sortDedupLoop prev ts ∨ x = prev := by
  induction ts generalizing prev with
  | nil => cases hx
  | cons t ts ih =>
    rw [sortDedupLoop_cons]
    by_cases h : t = prev
    · rw [if_pos h]
      rcases List.mem_cons.mp hx with rfl | hx'
      · exact Or.inr h
      · exact ih prev hx'
    · rw [if_neg h]
      rcases List.mem_cons.mp hx with rfl | hx'
      · exact Or.inl (List.mem_cons_self _ _)
      · rcases ih t hx' with hm | rfl
        · exact Or.inl (List.mem_cons_of_mem _ hm)
        · exact Or.inl (List.mem_cons_self _ _)

theorem sortDedupLoop_nodup {prev : ByteStr} {ts : List ByteStr}
    (h : (prev :: ts).Pairwise (fun a b => bytesLe a b = true)) :
    (sortDedupLoop prev ts).Nodup ∧ ∀ x ∈ sortDedupLoop prev ts, x ≠ prev := by
  induction ts generalizing prev with
  | nil => exact ⟨List.nodup_nil, by intro x hx; cases hx⟩
  | cons t ts ih =>
    rw [sortDedupLoop_cons]
    have hpt : bytesLe prev t = true := (List.pairwise_cons.mp h).1 t (List.mem_cons_self _ _)
    have htail : (t :: ts).Pairwise (fun a b => bytesLe a b = true) :=
      (List.pairwise_cons.mp h).2
    by_cases hEq : t = prev
    · rw [if_pos hEq]
      have hsub : (prev :: ts).Sublist (prev :: t :: ts) :=
        (List.sublist_cons_self t ts).cons₂ prev
      exact ih (h.sublist hsub)
    · rw [if_neg hEq]
      have ihres := ih htail
      refine ⟨List.nodup_cons.mpr ⟨fun hmem => (ihres.2 t hmem) rfl, ihres.1⟩, ?_⟩
      intro x hx
      rcases List.mem_cons.mp hx with rfl | hx'
      · exact hEq
      · intro hxprev
        subst hxprev
        have hmem : x ∈ ts := (sortDedupLoop_sublist t ts).subset hx'
        have h1 : bytesLe t x = true := (List.pairwise_cons.mp htail).1 x hmem
        exact hEq (bytesLe_antisymm h1 hpt)

theorem word_scanner_ne_nil {w : ByteStr} {s : ByteStr} (h : w ∈ word_scanner s) : w ≠ [] := by
  unfold word_scanner at h
  have := List.of_mem_filter h
  simpa using this

/-- Claim C8: `$(sort ...)` returns the whitespace-delimited words of its
argument sorted in ascending byte-value (lexicographic) order, with
duplicate words removed, joined by single spaces: the output of `sort_func`
is the space-joined rendering of a list of words that is sorted under the
byte-string order, has no duplicates, and contains exactly the words of the
input. -/
theorem c8_sort_func (s : ByteStr) :
    ∃ ws : List ByteStr,
      sort_func s = List.intercalate [32] ws ∧
        ws.Pairwise (fun a b => bytesLe a b = true) ∧
        ws.Nodup ∧
        ∀ w, w ∈ ws ↔ w ∈ word_scanner s := by
  refine ⟨sortDedupLoop [] ((word_scanner s).mergeSort bytesLe), rfl, ?_, ?_, ?_⟩
  · have hsorted : ((word_scanner s).mergeSort bytesLe).Pairwise
        (fun a b => bytesLe a b = true) :=
      List.sorted_mergeSort (fun a b c h1 h2 => @bytesLe_trans a b c h1 h2) bytesLe_total _
    exact hsorted.sublist (sortDedupLoop_sublist _ _)
  · have hsorted : ((word_scanner s).mergeSort bytesLe).Pairwise
        (fun a b => bytesLe a b = true) :=
      List.sorted_mergeSort (fun a b c h1 h2 => @bytesLe_trans a b c h1 h2) bytesLe_total _
    have hcons : (([] : ByteStr) :: (word_scanner s).mergeSort bytesLe).Pairwise
        (fun a b => bytesLe a b = true) :=
      List.pairwise_cons.mpr ⟨fun y _ => bytesLe_nil y, hsorted⟩
    exact (sortDedupLoop_nodup hcons).1
  · intro w
    constructor
    · intro hw
      have h1 : w ∈ (word_scanner s).mergeSort bytesLe :=
        (sortDedupLoop_sublist _ _).subset hw
      exact (List.mergeSort_perm (word_scanner s) bytesLe).subset h1
    · intro hw
      have h1 : w ∈ (word_scanner s).mergeSort bytesLe :=
        (List.mergeSort_perm (word_scanner s) bytesLe).symm.subset hw
      rcases mem_sortDedupLoop_of_mem [] h1 with hm | rfl
      · exact hm
      · exact absurd rfl (word_scanner_ne_nil hw)

/-! Claim C2: map lemmas. -/

theorem alookup_aset_self {α : Type} (m : List (ByteStr × α)) (k : ByteStr) (v : α) :
    alookup (aset m k v) k = some v := by
  induction m with
  | nil => simp [aset, alookup]
  | cons e rest ih =>
    obtain ⟨k', v'⟩ := e
    by_cases h : k = k'
    · simp [aset, alookup, h]
    · simp [aset, alookup, h, ih]

theorem alookup_aset_ne {α : Type} (m : List (ByteStr × α)) {k k' : ByteStr} (v : α)
    (h : k' ≠ k) : alookup (aset m k v) k' = alookup m k' := by
  induction m with
  | nil => simp [aset, alookup, h]
  | cons e rest ih =>
    obtain ⟨k'', v''⟩ := e
    by_cases h2 : k = k''
    · subst h2
      simp [aset, alookup, h]
    · simp only [aset, if_neg h2, alookup]
      by_cases h3 : k' = k''
      · simp [h3]
      · simp [h3, ih]

theorem aset_self_eq {α : Type} {m : List (ByteStr × α)} {k : ByteStr} {v : α}
    (h : alookup m k = some v) : aset m k v = m := by
  induction m with
  | nil => simp [alookup] at h
  | cons e rest ih =>
    obtain ⟨k', v'⟩ := e
    by_cases h2 : k = k'
    · subst h2
      have hv : v' = v := by simpa [alookup] using h
      subst hv
      simp [aset]
    · simp only [alookup, if_neg h2] at h
      simp [aset, h2, ih h]

theorem roOf_aset_self (m : VarsMap) (k : ByteStr) (v : Variable) :
    roOf (aset m k v) k = v.readonly := by
  unfold roOf
  rw [alookup_aset_self]

theorem roOf_aset_ne (m : VarsMap) {k k' : ByteStr} (v : Variable) (h : k' ≠ k) :
    roOf (aset m k v) k' = roOf m k' := by
  unfold roOf
  rw [alookup_aset_ne m v h]

theorem mapMono_refl (m : VarsMap) : MapMono m m := fun _ h => h

theorem mapMono_trans {m1 m2 m3 : VarsMap} (h1 : MapMono m1 m2) (h2 : MapMono m2 m3) :
    MapMono m1 m3 := fun sym h => h2 sym (h1 sym h)

theorem mapMono_aset {m : VarsMap} {k : ByteStr} {v : Variable}
    (h : roOf m k = true → v.readonly = true) : MapMono m (aset m k v) := by
  intro sym hsym
  by_cases he : sym = k
  · subst he
    rw [roOf_aset_self]
    exact h hsym
  · rw [roOf_aset_ne m v he]
    exact hsym

theorem mapMono_aset_ro_true {m : VarsMap} {k : ByteStr} {v : Variable}
    (h : v.readonly = true) : MapMono m (aset m k v) := mapMono_aset fun _ => h

theorem mapMono_aset_not_ro {m : VarsMap} {k : ByteStr} {v : Variable}
    (h : roOf m k = false) : MapMono m (aset m k v) :=
  mapMono_aset fun h' => absurd h' (by simp [h])

theorem variable_set_readonly_self {v : Variable} (h : v.readonly = true) :
    { v with readonly := true } = v := by
  obtain ⟨o, r, val⟩ := v
  simp only at h
  rw [h]

theorem scopesMono_refl (st : EvState) : ScopesMono st st := fun _ _ h => h

theorem scopesMono_trans {s1 s2 s3 : EvState} (h1 : ScopesMono s1 s2) (h2 : ScopesMono s2 s3) :
    ScopesMono s1 s3 := fun t sym h => h2 t sym (h1 t sym h)

theorem scopeOf_ruleVars_eq {st st' : EvState} (h : st'.ruleVars = st.ruleVars) (t : ByteStr) :
    scopeOf st' t = scopeOf st t := by
  unfold scopeOf
  rw [h]

theorem scopeOf_setScope_self (st : EvState) (target : ByteStr) (sc : VarsMap) :
    scopeOf (setScope st target sc) target = sc := by
  unfold scopeOf setScope
  simp [alookup_aset_self]

theorem scopeOf_setScope_ne (st : EvState) {target t : ByteStr} (sc : VarsMap)
    (h : t ≠ target) : scopeOf (setScope st target sc) t = scopeOf st t := by
  unfold scopeOf setScope
  simp [alookup_aset_ne _ _ h]

theorem scopesMono_setScope {st : EvState} {target : ByteStr} {sc : VarsMap}
    (h : MapMono (scopeOf st target) sc) : ScopesMono st (setScope st target sc) := by
  intro t sym hsym
  by_cases he : t = target
  · subst he
    rw [scopeOf_setScope_self]
    exact h sym hsym
  · rw [scopeOf_setScope_ne st sc he]
    exact hsym

theorem setScope_setScope (st : EvState) (target : ByteStr) (sc1 sc2 : VarsMap) :
    setScope (setScope st target sc1) target sc2 = setScope st target sc2 := by
  unfold setScope
  simp only
  congr 1
  generalize st.ruleVars = m
  induction m with
  | nil => simp [aset]
  | cons e rest ih =>
    obtain ⟨k, v⟩ := e
    by_cases h : target = k
    · simp [aset, h]
    · simp [aset, h, ih]

/-! Claim C2: characterizations of the assignment helpers. -/

theorem roOf_eq_true {m : VarsMap} {sym : ByteStr} (h : roOf m sym = true) :
    ∃ v, alookup m sym = some v ∧ v.readonly = true := by
  unfold roOf at h
  rcases ha : alookup m sym with _ | v
  · rw [ha] at h
    cases h
  · rw [ha] at h
    exact ⟨v, rfl, h⟩

theorem vars_assign_chars (scope : VarsMap) (sym : ByteStr) (var : Variable) :
    MapMono scope (vars_assign scope sym var).1 ∧
      (roOf scope sym = true → (vars_assign scope sym var).1 = scope) := by
  unfold vars_assign
  rcases h : alookup scope sym with _ | orig
  · refine ⟨mapMono_aset_not_ro (by simp [roOf, h]), ?_⟩
    intro hro
    unfold roOf at hro
    rw [h] at hro
    cases hro
  · have hroEq : roOf scope sym = orig.readonly := by
      unfold roOf
      rw [h]
    rcases hro : orig.readonly
    · rcases ho : orig.origin <;>
        simp_all [mapMono_refl, mapMono_aset_not_ro]
    · simp [hro, mapMono_refl]

theorem mark_global_readonly_chars (names : List ByteStr) (st : EvState) :
    ∃ m, (mark_global_readonly st names).1 = { st with globals := m } ∧
      MapMono st.globals m := by
  induction names generalizing st with
  | nil => exact ⟨st.globals, rfl, mapMono_refl _⟩
  | cons name rest ih =>
    unfold mark_global_readonly
    rcases h : alookup st.globals name with _ | v
    · exact ⟨st.globals, rfl, mapMono_refl _⟩
    · obtain ⟨m, hm, hmono⟩ :=
        ih { st with globals := aset st.globals name { v with readonly := true } }
      refine ⟨m, hm, mapMono_trans (mapMono_aset_ro_true rfl) hmono⟩

theorem mark_scope_readonly_mono (names : List ByteStr) (scope : VarsMap) :
    MapMono scope (mark_scope_readonly scope names).1 := by
  induction names generalizing scope with
  | nil => exact mapMono_refl _
  | cons name rest ih =>
    unfold mark_scope_readonly
    rcases h : alookup scope name with _ | v
    · exact mapMono_refl _
    · exact mapMono_trans (mapMono_aset_ro_true rfl) (ih _)

theorem finish_global_new_chars (st : EvState) (lhs : ByteStr) (var : Variable)
    (io fi : Bool) :
    (∃ m, (finish_global_new st lhs var io fi).1 = { st with globals := m } ∧
      MapMono st.globals m) ∧
      (roOf st.globals lhs = true →
        (finish_global_new st lhs var io fi).1 = st ∧
          (finish_global_new st lhs var io fi).2 = some .readonlyVar) := by
  constructor
  · unfold finish_global_new
    rcases h : alookup st.globals lhs with _ | orig
    · rw [show set_global_var none var io true = ⟨some var, true, false, none⟩ from rfl]
      rcases fi with _ | _
      · exact ⟨aset st.globals lhs var,
          rfl, mapMono_aset_not_ro (by simp [roOf, h])⟩
      · refine ⟨aset (aset st.globals lhs var) lhs { var with readonly := true }, rfl, ?_⟩
        exact mapMono_trans (mapMono_aset_not_ro (by simp [roOf, h]))
          (mapMono_aset_ro_true rfl)
    · have hroEq : roOf st.globals lhs = orig.readonly := by
        unfold roOf
        rw [h]
      rcases hro : orig.readonly
      · rcases hor : (!io && (orig.origin == VarOrigin.Override ||
            orig.origin == VarOrigin.EnvironmentOverride))
        · rcases hcf : (orig.origin == VarOrigin.CommandLine &&
              var.origin == VarOrigin.File)
          · rcases hau : (orig.origin == VarOrigin.Automatic)
            · rw [show set_global_var (some orig) var io true =
                  ⟨some var, true, false, none⟩ from by
                simp [set_global_var, hro, hor, hcf, hau]]
              rcases fi with _ | _
              · exact ⟨aset st.globals lhs var, rfl,
                  mapMono_aset_not_ro (by rw [hroEq, hro])⟩
              · refine ⟨aset (aset st.globals lhs var) lhs { var with readonly := true },
                  rfl, ?_⟩
                exact mapMono_trans (mapMono_aset_not_ro (by rw [hroEq, hro]))
                  (mapMono_aset_ro_true rfl)
            · rw [show set_global_var (some orig) var io true =
                  ⟨some orig, false, false, some .overridingAutomatic⟩ from by
                simp [set_global_var, hro, hor, hcf, hau]]
              exact ⟨st.globals, rfl, mapMono_refl _⟩
          · rw [show set_global_var (some orig) var io true =
                ⟨some orig, false, false, none⟩ from by
              simp [set_global_var, hro, hor, hcf]]
            rcases fi with _ | _ <;>
              exact ⟨aset st.globals lhs orig, rfl, by
                rw [aset_self_eq h]
                exact mapMono_refl _⟩
        · rw [show set_global_var (some orig) var io true =
              ⟨some orig, false, false, none⟩ from by
            simp [set_global_var, hro, hor]]
          rcases fi with _ | _ <;>
            exact ⟨aset st.globals lhs orig, rfl, by
              rw [aset_self_eq h]
              exact mapMono_refl _⟩
      · rw [show set_global_var (some orig) var io true =
            ⟨some orig, false, true, none⟩ from by
          simp [set_global_var, hro]]
        exact ⟨st.globals, rfl, mapMono_refl _⟩
  · intro hro
    obtain ⟨v, hv', hvro⟩ := roOf_eq_true hro
    unfold finish_global_new
    rw [hv']
    simp [set_global_var, hvro]

theorem final_mark_global_chars (st : EvState) (lhs : ByteStr) (fi : Bool) :
    (∃ m, (final_mark_global st lhs fi).1 = { st with globals := m } ∧
      MapMono st.globals m) ∧
      (roOf st.globals lhs = true → (final_mark_global st lhs fi).1 = st) := by
  constructor
  · unfold final_mark_global
    rcases fi with _ | _
    · exact ⟨st.globals, rfl, mapMono_refl _⟩
    · rcases h : alookup st.globals lhs with _ | v
      · exact ⟨st.globals, rfl, mapMono_refl _⟩
      · exact ⟨aset st.globals lhs { v with readonly := true }, rfl,
          mapMono_aset_ro_true rfl⟩
  · intro hro
    obtain ⟨v, hv, hvro⟩ := roOf_eq_true hro
    unfold final_mark_global
    rcases fi with _ | _
    · rfl
    · simp only [hv]
      rw [variable_set_readonly_self hvro, aset_self_eq hv]
      simp

/-! Claim C2: characterizations of the assignment statements. -/

theorem eval_assign_chars (fuel : Nat) (st : EvState) (lhs : ByteStr) (op : AssignOp)
    (rhsV : Val) (io fi b c : Bool) :
    ∃ m sfe, (eval_assign fuel st lhs op rhsV io fi b c).1 =
      { st with globals := m, currentScope := none, symbolsForEval := sfe } ∧
      MapMono st.globals m := by
  by_cases hk : lhs = kati_readonly_sym
  · simp only [eval_assign, if_pos hk]
    rcases hev : evalV fuel { st with currentScope := none } rhsV with ⟨sfe, r⟩
    rcases r with e | buf
    · exact ⟨st.globals, sfe, rfl, mapMono_refl _⟩
    · obtain ⟨m, hm, hmono⟩ := mark_global_readonly_chars (word_scanner buf)
        { st with currentScope := none, symbolsForEval := sfe }
      exact ⟨m, sfe, hm, hmono⟩
  · rcases op with _ | _ | _ | _ <;> simp only [eval_assign, if_neg hk]
    · rcases hev : evalV fuel { st with currentScope := none } rhsV with ⟨sfe, r⟩
      rcases r with e | buf
      · exact ⟨st.globals, sfe, rfl, mapMono_refl _⟩
      · obtain ⟨⟨m, hm, hmono⟩, -⟩ := finish_global_new_chars
          { st with currentScope := none, symbolsForEval := sfe } lhs
          ⟨origin_for b c io, false, .Simple buf⟩ io fi
        exact ⟨m, sfe, hm, hmono⟩
    · obtain ⟨⟨m, hm, hmono⟩, -⟩ := finish_global_new_chars
        { st with currentScope := none } lhs
        ⟨origin_for b c io, false, .Recursive rhsV⟩ io fi
      exact ⟨m, st.symbolsForEval, hm, hmono⟩
    · split
      · rename_i prev heq
        have hp : alookup st.globals lhs = some prev := heq
        rcases hro : prev.readonly
        · rcases hval : prev.value with s | v
          · rcases hev : evalV fuel { st with currentScope := none } rhsV with ⟨sfe, r⟩
            rcases r with e | buf
            · exact ⟨st.globals, sfe, rfl, mapMono_refl _⟩
            · obtain ⟨⟨m, hm, hmono⟩, -⟩ := final_mark_global_chars
                { st with
                    currentScope := none,
                    symbolsForEval := sfe,
                    globals :=
                      aset st.globals lhs
                        ⟨prev.origin, false, .Simple (s ++ [32] ++ buf)⟩ }
                lhs fi
              refine ⟨m, sfe, hm, mapMono_trans ?_ hmono⟩
              exact mapMono_aset_not_ro (by simp [roOf, hp, hro])
          · obtain ⟨⟨m, hm, hmono⟩, -⟩ := final_mark_global_chars
              { st with
                  currentScope := none,
                  globals :=
                    aset st.globals lhs
                      ⟨prev.origin, false,
                        InnerVar.Recursive (.ListV [v, .Literal [32], rhsV])⟩ }
              lhs fi
            refine ⟨m, st.symbolsForEval, hm, mapMono_trans ?_ hmono⟩
            exact mapMono_aset_not_ro (by simp [roOf, hp, hro])
        · exact ⟨st.globals, st.symbolsForEval, rfl, mapMono_refl _⟩
      · obtain ⟨⟨m, hm, hmono⟩, -⟩ := finish_global_new_chars
          { st with currentScope := none } lhs
          ⟨origin_for b c io, false, .Recursive rhsV⟩ io fi
        exact ⟨m, st.symbolsForEval, hm, hmono⟩
    · split
      · rename_i prev heq
        obtain ⟨⟨m, hm, hmono⟩, -⟩ := final_mark_global_chars
          { st with currentScope := none } lhs fi
        exact ⟨m, st.symbolsForEval, hm, hmono⟩
      · obtain ⟨⟨m, hm, hmono⟩, -⟩ := finish_global_new_chars
          { st with currentScope := none } lhs
          ⟨origin_for b c io, false, .Recursive rhsV⟩ io fi
        exact ⟨m, st.symbolsForEval, hm, hmono⟩

theorem eval_assign_readonly_unchanged (fuel : Nat) (st : EvState) (lhs : ByteStr)
    (op : AssignOp) (rhsV : Val) (io fi b c : Bool) (hk : lhs ≠ kati_readonly_sym)
    (hro : roOf st.globals lhs = true) :
    alookup (eval_assign fuel st lhs op rhsV io fi b c).1.globals lhs =
      alookup st.globals lhs := by
  obtain ⟨v, hv, hvro⟩ := roOf_eq_true hro
  rcases op with _ | _ | _ | _ <;> simp only [eval_assign, if_neg hk]
  · rcases hev : evalV fuel { st with currentScope := none } rhsV with ⟨sfe, r⟩
    rcases r with e | buf
    · rfl
    · obtain ⟨-, h2⟩ := finish_global_new_chars
        { st with currentScope := none, symbolsForEval := sfe } lhs
        ⟨origin_for b c io, false, .Simple buf⟩ io fi
      rw [(h2 hro).1]
  · obtain ⟨-, h2⟩ := finish_global_new_chars { st with currentScope := none } lhs
      ⟨origin_for b c io, false, .Recursive rhsV⟩ io fi
    rw [(h2 hro).1]
  · split
    · rename_i prev heq
      have hp : alookup st.globals lhs = some prev := heq
      have hpv : prev = v := by
        rw [hp] at hv
        exact Option.some_inj.mp hv
      subst hpv
      rw [hvro]
      rfl
    · rename_i heq
      have hp : alookup st.globals lhs = none := heq
      rw [hp] at hv
      cases hv
  · split
    · rename_i prev heq
      obtain ⟨-, h2⟩ := final_mark_global_chars { st with currentScope := none } lhs fi
      rw [h2 hro]
    · rename_i heq
      have hp : alookup st.globals lhs = none := heq
      rw [hp] at hv
      cases hv

/-! Claim C2: characterizations of the rule-specific assignment helpers. -/

theorem vars_assign_ro {scope : VarsMap} {sym : ByteStr} (var : Variable)
    (hro : roOf scope sym = true) :
    vars_assign scope sym var = (scope, false, true, none) := by
  obtain ⟨v, hv, hvro⟩ := roOf_eq_true hro
  simp [vars_assign, hv, hvro]

theorem finish_rule_new_chars (st : EvState) (target lhs : ByteStr) (var : Variable)
    (fi : Bool) :
    ((finish_rule_new st target lhs var fi).1.globals = st.globals ∧
      ScopesMono st (finish_rule_new st target lhs var fi).1) ∧
      (roOf (scopeOf st target) lhs = true →
        scopeOf (finish_rule_new st target lhs var fi).1 target = scopeOf st target) := by
  constructor
  · unfold finish_rule_new
    rcases hva : vars_assign (scopeOf st target) lhs var with ⟨scope', replaced, roFlag, err⟩
    have hmono : MapMono (scopeOf st target) scope' := by
      have h := (vars_assign_chars (scopeOf st target) lhs var).1
      rw [hva] at h
      exact h
    rcases err with _ | e
    · rcases roFlag with _ | _
      · rcases replaced with _ | _ <;> rcases fi with _ | _
        · exact ⟨rfl, scopesMono_setScope hmono⟩
        · exact ⟨rfl, scopesMono_setScope hmono⟩
        · exact ⟨rfl, scopesMono_setScope hmono⟩
        · show (setScope (setScope st target scope') target
              (aset (scopeOf (setScope st target scope') target) lhs
                { var with readonly := true })).globals = st.globals ∧
            ScopesMono st (setScope (setScope st target scope') target
              (aset (scopeOf (setScope st target scope') target) lhs
                { var with readonly := true }))
          rw [scopeOf_setScope_self, setScope_setScope]
          exact ⟨rfl, scopesMono_setScope
            (mapMono_trans hmono (mapMono_aset_ro_true rfl))⟩
      · exact ⟨rfl, scopesMono_setScope hmono⟩
    · exact ⟨rfl, scopesMono_setScope hmono⟩
  · intro hro
    unfold finish_rule_new
    rw [vars_assign_ro var hro]
    show scopeOf (setScope st target (scopeOf st target)) target = scopeOf st target
    rw [scopeOf_setScope_self]

theorem final_mark_rule_chars (st : EvState) (target lhs : ByteStr) (fi : Bool) :
    ((final_mark_rule st target lhs fi).1.globals = st.globals ∧
      ScopesMono st (final_mark_rule st target lhs fi).1) ∧
      (roOf (scopeOf st target) lhs = true →
        scopeOf (final_mark_rule st target lhs fi).1 target = scopeOf st target) := by
  constructor
  · unfold final_mark_rule
    rcases fi with _ | _
    · exact ⟨rfl, scopesMono_refl st⟩
    · rcases h : alookup (scopeOf st target) lhs with _ | v
      · exact ⟨rfl, scopesMono_refl st⟩
      · exact ⟨rfl, scopesMono_setScope (mapMono_aset_ro_true rfl)⟩
  · intro hro
    obtain ⟨v, hv, hvro⟩ := roOf_eq_true hro
    unfold final_mark_rule
    rcases fi with _ | _
    · rfl
    · rw [hv]
      show scopeOf (setScope st target
        (aset (scopeOf st target) lhs { v with readonly := true })) target = scopeOf st target
      rw [scopeOf_setScope_self, variable_set_readonly_self hvro, aset_self_eq hv]

theorem eval_rule_assign_chars (fuel : Nat) (st : EvState) (target lhs : ByteStr)
    (op : AssignOp) (rhsV : Val) (fi : Bool) :
    (eval_rule_assign fuel st target lhs op rhsV fi).1.globals = st.globals ∧
      ScopesMono st (eval_rule_assign fuel st target lhs op rhsV fi).1 := by
  by_cases hk : lhs = kati_readonly_sym
  · simp only [eval_rule_assign, if_pos hk]
    split
    · exact ⟨rfl, scopesMono_refl st⟩
    · rename_i sfe buf heq
      rcases hms : mark_scope_readonly
        (scopeOf { st with currentScope := some target, symbolsForEval := sfe } target)
        (word_scanner buf) with ⟨scope', e⟩
      have hmono : MapMono (scopeOf st target) scope' := by
        have h := mark_scope_readonly_mono (word_scanner buf)
          (scopeOf { st with currentScope := some target, symbolsForEval := sfe } target)
        rw [hms] at h
        exact h
      rcases e with _ | e
      · exact ⟨rfl, scopesMono_setScope hmono⟩
      · exact ⟨rfl, scopesMono_setScope hmono⟩
  · rcases op with _ | _ | _ | _ <;> simp only [eval_rule_assign, if_neg hk]
    · split
      · exact ⟨rfl, scopesMono_refl st⟩
      · rename_i sfe buf heq
        rcases hfr : finish_rule_new
          { st with currentScope := some target, symbolsForEval := sfe } target lhs
          ⟨.File, false, .Simple buf⟩ fi with ⟨st2, e⟩
        have h := (finish_rule_new_chars
          { st with currentScope := some target, symbolsForEval := sfe } target lhs
          ⟨.File, false, .Simple buf⟩ fi).1
        rw [hfr] at h
        rcases e with _ | e
        · exact ⟨h.1, h.2⟩
        · exact ⟨h.1, h.2⟩
    · rcases hfr : finish_rule_new { st with currentScope := some target } target lhs
        ⟨.File, false, .Recursive rhsV⟩ fi with ⟨st2, e⟩
      have h := (finish_rule_new_chars { st with currentScope := some target } target lhs
        ⟨.File, false, .Recursive rhsV⟩ fi).1
      rw [hfr] at h
      rcases e with _ | e
      · exact ⟨h.1, h.2⟩
      · exact ⟨h.1, h.2⟩
    · split
      · rename_i prev heq
        have hp : alookup (scopeOf st target) lhs = some prev := heq
        split
        · exact ⟨rfl, scopesMono_refl st⟩
        · rename_i hro
          have hrob : prev.readonly = false := by simpa using hro
          have hrof : roOf (scopeOf st target) lhs = false := by
            simp [roOf, hp, hrob]
          split
          · rename_i s heq2
            split
            · exact ⟨rfl, scopesMono_refl st⟩
            · rename_i sfe buf heq3
              rcases hfm : final_mark_rule
                (setScope { st with currentScope := some target, symbolsForEval := sfe }
                  target
                  (aset
                    (scopeOf { st with currentScope := some target, symbolsForEval := sfe }
                      target)
                    lhs { prev with value := .Simple (s ++ [32] ++ buf) }))
                target lhs fi with ⟨st2, e⟩
              have h := (final_mark_rule_chars
                (setScope { st with currentScope := some target, symbolsForEval := sfe }
                  target
                  (aset
                    (scopeOf { st with currentScope := some target, symbolsForEval := sfe }
                      target)
                    lhs { prev with value := .Simple (s ++ [32] ++ buf) }))
                target lhs fi).1
              rw [hfm] at h
              have hstep :
                  ScopesMono { st with currentScope := some target, symbolsForEval := sfe }
                    (setScope
                      { st with currentScope := some target, symbolsForEval := sfe }
                      target
                      (aset
                        (scopeOf
                          { st with currentScope := some target, symbolsForEval := sfe }
                          target)
                        lhs { prev with value := .Simple (s ++ [32] ++ buf) })) :=
                scopesMono_setScope (mapMono_aset_not_ro hrof)
              have hfin :
                  ScopesMono { st with currentScope := some target, symbolsForEval := sfe }
                    (st2, e).1 := scopesMono_trans hstep h.2
              rcases e with _ | e
              · exact ⟨h.1, hfin⟩
              · exact ⟨h.1, hfin⟩
          · rename_i v heq2
            rcases hfm : final_mark_rule
              (setScope { st with currentScope := some target } target
                (aset (scopeOf { st with currentScope := some target } target) lhs
                  { prev with value := .Recursive (.ListV [v, .Literal [32], rhsV]) }))
              target lhs fi with ⟨st2, e⟩
            have h := (final_mark_rule_chars
              (setScope { st with currentScope := some target } target
                (aset (scopeOf { st with currentScope := some target } target) lhs
                  { prev with value := .Recursive (.ListV [v, .Literal [32], rhsV]) }))
              target lhs fi).1
            rw [hfm] at h
            have hstep :
                ScopesMono { st with currentScope := some target }
                  (setScope { st with currentScope := some target } target
                    (aset (scopeOf { st with currentScope := some target } target) lhs
                      { prev with value := .Recursive (.ListV [v, .Literal [32], rhsV]) })) :=
              scopesMono_setScope (mapMono_aset_not_ro hrof)
            have hfin :
                ScopesMono { st with currentScope := some target } (st2, e).1 :=
              scopesMono_trans hstep h.2
            rcases e with _ | e
            · exact ⟨h.1, hfin⟩
            · exact ⟨h.1, hfin⟩
      · rcases hfr : finish_rule_new { st with currentScope := some target } target lhs
          ⟨.File, false, .Recursive rhsV⟩ fi with ⟨st2, e⟩
        have h := (finish_rule_new_chars { st with currentScope := some target } target lhs
          ⟨.File, false, .Recursive rhsV⟩ fi).1
        rw [hfr] at h
        rcases e with _ | e
        · exact ⟨h.1, h.2⟩
        · exact ⟨h.1, h.2⟩
    · split
      · rename_i prev heq
        rcases hfm : final_mark_rule { st with currentScope := some target } target lhs fi
          with ⟨st2, e⟩
        have h := (final_mark_rule_chars { st with currentScope := some target }
          target lhs fi).1
        rw [hfm] at h
        rcases e with _ | e
        · exact ⟨h.1, h.2⟩
        · exact ⟨h.1, h.2⟩
      · rcases hfr : finish_rule_new { st with currentScope := some target } target lhs
          ⟨.File, false, .Recursive rhsV⟩ fi with ⟨st2, e⟩
        have h := (finish_rule_new_chars { st with currentScope := some target } target lhs
          ⟨.File, false, .Recursive rhsV⟩ fi).1
        rw [hfr] at h
        rcases e with _ | e
        · exact ⟨h.1, h.2⟩
        · exact ⟨h.1, h.2⟩

theorem eval_rule_assign_readonly_unchanged (fuel : Nat) (st : EvState)
    (target lhs : ByteStr) (op : AssignOp) (rhsV : Val) (fi : Bool)
    (hk : lhs ≠ kati_readonly_sym)
    (hro : roOf (scopeOf st target) lhs = true) :
    alookup (scopeOf (eval_rule_assign fuel st target lhs op rhsV fi).1 target) lhs =
      alookup (scopeOf st target) lhs := by
  obtain ⟨v, hv, hvro⟩ := roOf_eq_true hro
  rcases op with _ | _ | _ | _ <;> simp only [eval_rule_assign, if_neg hk]
  · split
    · rfl
    · rename_i sfe buf heq
      rcases hfr : finish_rule_new
        { st with currentScope := some target, symbolsForEval := sfe } target lhs
        ⟨.File, false, .Simple buf⟩ fi with ⟨st2, e⟩
      have h2 := (finish_rule_new_chars
        { st with currentScope := some target, symbolsForEval := sfe } target lhs
        ⟨.File, false, .Simple buf⟩ fi).2 hro
      rw [hfr] at h2
      have h3 : scopeOf st2 target = scopeOf st target := h2
      rcases e with _ | e
      · show alookup (scopeOf st2 target) lhs = alookup (scopeOf st target) lhs
        rw [h3]
      · show alookup (scopeOf st2 target) lhs = alookup (scopeOf st target) lhs
        rw [h3]
  · rcases hfr : finish_rule_new { st with currentScope := some target } target lhs
      ⟨.File, false, .Recursive rhsV⟩ fi with ⟨st2, e⟩
    have h2 := (finish_rule_new_chars { st with currentScope := some target } target lhs
      ⟨.File, false, .Recursive rhsV⟩ fi).2 hro
    rw [hfr] at h2
    have h3 : scopeOf st2 target = scopeOf st target := h2
    rcases e with _ | e
    · show alookup (scopeOf st2 target) lhs = alookup (scopeOf st target) lhs
      rw [h3]
    · show alookup (scopeOf st2 target) lhs = alookup (scopeOf st target) lhs
      rw [h3]
  · split
    · rename_i prev heq
      have hp : alookup (scopeOf st target) lhs = some prev := heq
      have hpv : prev = v := by
        rw [hp] at hv
        exact Option.some_inj.mp hv
      subst hpv
      rw [hvro]
      rfl
    · rename_i heq
      have hp : alookup (scopeOf st target) lhs = none := heq
      rw [hp] at hv
      cases hv
  · split
    · rename_i prev heq
      rcases hfm : final_mark_rule { st with currentScope := some target } target lhs fi
        with ⟨st2, e⟩
      have h2 := (final_mark_rule_chars { st with currentScope := some target }
        target lhs fi).2 hro
      rw [hfm] at h2
      have h3 : scopeOf st2 target = scopeOf st target := h2
      rcases e with _ | e
      · show alookup (scopeOf st2 target) lhs = alookup (scopeOf st target) lhs
        rw [h3]
      · show alookup (scopeOf st2 target) lhs = alookup (scopeOf st target) lhs
        rw [h3]
    · rename_i heq
      have hp : alookup (scopeOf st target) lhs = none := heq
      rw [hp] at hv
      cases hv

theorem evalStep_mono (fuel : Nat) (st : EvState) (op : EvalOp) :
    MapMono st.globals (evalStep fuel st op).1.globals ∧
      ScopesMono st (evalStep fuel st op).1 := by
  rcases op with ⟨lhs, aop, rhs, io, fi, b, c⟩ | ⟨target, lhs, aop, rhs, fi⟩
  · obtain ⟨m, sfe, hm, hmono⟩ := eval_assign_chars fuel st lhs aop rhs io fi b c
    constructor
    · show MapMono st.globals (eval_assign fuel st lhs aop rhs io fi b c).1.globals
      rw [hm]
      exact hmono
    · show ScopesMono st (eval_assign fuel st lhs aop rhs io fi b c).1
      rw [hm]
      exact fun t sym h => h
  · have h := eval_rule_assign_chars fuel st target lhs aop rhs fi
    constructor
    · show MapMono st.globals (eval_rule_assign fuel st target lhs aop rhs fi).1.globals
      rw [h.1]
      exact mapMono_refl _
    · exact h.2

theorem evalRun_mono (fuel : Nat) (ops : List EvalOp) (st : EvState) :
    MapMono st.globals (evalRun fuel st ops).globals ∧
      ScopesMono st (evalRun fuel st ops) := by
  induction ops generalizing st with
  | nil => exact ⟨mapMono_refl _, scopesMono_refl st⟩
  | cons op ops ih =>
    simp only [evalRun]
    rcases hs : evalStep fuel st op with ⟨st2, e⟩
    have hstep := evalStep_mono fuel st op
    rw [hs] at hstep
    rcases e with _ | e
    · exact ⟨mapMono_trans hstep.1 (ih st2).1, scopesMono_trans hstep.2 (ih st2).2⟩
    · exact ⟨hstep.1, hstep.2⟩

/-- Claim C2: the readonly bit is monotone.  Over every sequence of evaluator
operations (global assignments — covering `:=`, `=`, `+=`, `?=`, `override`,
`$=` finalization and `.KATI_READONLY` marking — and rule-specific
assignments), a global binding or rule-scope binding whose readonly flag is
true keeps it true; and a single assignment statement targeting a readonly
variable leaves that variable's binding unchanged (the evaluator raises the
readonly error instead of installing the new value). -/
theorem c2_readonly_monotone (fuel : Nat) (st : EvState) (ops : List EvalOp) :
    (∀ sym, globalReadonly st sym = true →
        globalReadonly (evalRun fuel st ops) sym = true) ∧
    (∀ target sym, ruleReadonly st target sym = true →
        ruleReadonly (evalRun fuel st ops) target sym = true) ∧
    (∀ lhs aop rhsV io fi b c, lhs ≠ kati_readonly_sym →
        globalReadonly st lhs = true →
        alookup (evalStep fuel st (.assign lhs aop rhsV io fi b c)).1.globals lhs =
          alookup st.globals lhs) ∧
    (∀ target lhs aop rhsV fi, lhs ≠ kati_readonly_sym →
        ruleReadonly st target lhs = true →
        alookup
            (scopeOf (evalStep fuel st (.ruleAssign target lhs aop rhsV fi)).1 target)
            lhs =
          alookup (scopeOf st target) lhs) := by
  refine ⟨?_, ?_, ?_, ?_⟩
  · exact fun sym h => (evalRun_mono fuel ops st).1 sym h
  · exact fun target sym h => (evalRun_mono fuel ops st).2 target sym h
  · exact fun lhs aop rhsV io fi b c hk hro =>
      eval_assign_readonly_unchanged fuel st lhs aop rhsV io fi b c hk hro
  · exact fun target lhs aop rhsV fi hk hro =>
      eval_rule_assign_readonly_unchanged fuel st target lhs aop rhsV fi hk hro

/-- Instance of the C2 theorem on a concrete state: a readonly global `X`
and a readonly rule-scope binding `Y` for target `T` survive a run of one
global and one rule-specific assignment, and each direct assignment leaves
the readonly binding unchanged. -/
theorem c2_witness :
    globalReadonly (evalRun 4
        ⟨[([88], ⟨.File, true, .Simple [49]⟩)],
          [([84], [([89], ⟨.File, true, .Simple [50]⟩)])], none, []⟩
        [.assign [88] .ColonEq (.Literal [50]) false false false false,
          .ruleAssign [84] [89] .Eq (.Literal [51]) false]) [88] = true ∧
    ruleReadonly (evalRun 4
        ⟨[([88], ⟨.File, true, .Simple [49]⟩)],
          [([84], [([89], ⟨.File, true, .Simple [50]⟩)])], none, []⟩
        [.assign [88] .ColonEq (.Literal [50]) false false false false,
          .ruleAssign [84] [89] .Eq (.Literal [51]) false]) [84] [89] = true ∧
    alookup (evalStep 4
        ⟨[([88], ⟨.File, true, .Simple [49]⟩)],
          [([84], [([89], ⟨.File, true, .Simple [50]⟩)])], none, []⟩
        (.assign [88] .ColonEq (.Literal [50]) false false false false)).1.globals [88] =
      alookup (EvState.globals
        ⟨[([88], ⟨.File, true, .Simple [49]⟩)],
          [([84], [([89], ⟨.File, true, .Simple [50]⟩)])], none, []⟩) [88] ∧
    alookup (scopeOf (evalStep 4
        ⟨[([88], ⟨.File, true, .Simple [49]⟩)],
          [([84], [([89], ⟨.File, true, .Simple [50]⟩)])], none, []⟩
        (.ruleAssign [84] [89] .Eq (.Literal [51]) false)).1 [84]) [89] =
      alookup (scopeOf
        ⟨[([88], ⟨.File, true, .Simple [49]⟩)],
          [([84], [([89], ⟨.File, true, .Simple [50]⟩)])], none, []⟩ [84]) [89] :=
  ⟨(c2_readonly_monotone 4
      ⟨[([88], ⟨.File, true, .Simple [49]⟩)],
        [([84], [([89], ⟨.File, true, .Simple [50]⟩)])], none, []⟩
      [.assign [88] .ColonEq (.Literal [50]) false false false false,
        .ruleAssign [84] [89] .Eq (.Literal [51]) false]).1 [88] (by decide),
   (c2_readonly_monotone 4
      ⟨[([88], ⟨.File, true, .Simple [49]⟩)],
        [([84], [([89], ⟨.File, true, .Simple [50]⟩)])], none, []⟩
      [.assign [88] .ColonEq (.Literal [50]) false false false false,
        .ruleAssign [84] [89] .Eq (.Literal [51]) false]).2.1 [84] [89] (by decide),
   (c2_readonly_monotone 4
      ⟨[([88], ⟨.File, true, .Simple [49]⟩)],
        [([84], [([89], ⟨.File, true, .Simple [50]⟩)])], none, []⟩
      []).2.2.1 [88] .ColonEq (.Literal [50]) false false false false
        (by decide) (by decide),
   (c2_readonly_monotone 4
      ⟨[([88], ⟨.File, true, .Simple [49]⟩)],
        [([84], [([89], ⟨.File, true, .Simple [50]⟩)])], none, []⟩
      []).2.2.2 [84] [89] .Eq (.Literal [51]) false (by decide) (by decide)⟩

/-- Evaluating `X := $X` on a state where `X` is unbound succeeds: the
recursion guard is not triggered, refuting the unconditional failure stated
by claim C5. -/
theorem c5_counterexample :
    (eval_assign 8 ⟨[], [], none, []⟩ [88] .ColonEq (.SymRef [88])
        false false false false).2 = none := by
  simp [eval_assign, evalV, evalSymRef, lookup_var, alookup, finish_global_new,
    set_global_var, origin_for, kati_readonly_sym]

/-- Claim C5 (corrected): re-entering a symbol that is already in the
`symbols_for_eval` guard set, while the symbol is bound, signals the
recursive-variable error; consequently `X := $X` fails when `X` is already
bound to the self-referential recursive value `$X`.  The failure is not
unconditional: with `X` unbound the same assignment succeeds. -/
theorem c5_recursion_guard :
    (∀ (fuel : Nat) (st : EvState) (sym : ByteStr) (v : Variable),
        sym ∈ st.symbolsForEval → lookup_var st sym = some v →
        evalV (fuel + 1) st (.SymRef sym) =
          (st.symbolsForEval, .error .recursiveVar)) ∧
    (eval_assign 8
        ⟨[([88], ⟨.File, false, .Recursive (.SymRef [88])⟩)], [], none, []⟩
        [88] .ColonEq (.SymRef [88]) false false false false).2 =
      some .recursiveVar := by
  constructor
  · intro fuel st sym v hm hl
    simp [evalV, evalSymRef, hl, hm]
  · simp [eval_assign, evalV, evalSymRef, lookup_var, alookup, kati_readonly_sym]

/-- Instance of the C5 guard property on a concrete state whose
`symbols_for_eval` set already holds `X`. -/
theorem c5_witness :
    ([88] : ByteStr) ∈ ([[88]] : List ByteStr) ∧
    lookup_var ⟨[([88], ⟨.File, false, .Simple [49]⟩)], [], none, [[88]]⟩ [88] =
      some ⟨.File, false, .Simple [49]⟩ ∧
    evalV 4 ⟨[([88], ⟨.File, false, .Simple [49]⟩)], [], none, [[88]]⟩
        (.SymRef [88]) = ([[88]], .error .recursiveVar) :=
  ⟨by decide, by rfl,
    c5_recursion_guard.1 3
      ⟨[([88], ⟨.File, false, .Simple [49]⟩)], [], none, [[88]]⟩ [88]
      ⟨.File, false, .Simple [49]⟩ (by decide) (by rfl)⟩

/-! Claim C9: structural lemmas about joinSlash and the path normal form. -/

theorem joinSlash_ne_nil {cs : List ByteStr} (hg : ∀ c ∈ cs, c ≠ []) (hne : cs ≠ []) :
    joinSlash cs ≠ [] := by
  match cs with
  | [] => exact absurd rfl hne
  | [c] => simpa [joinSlash] using hg c (by simp)
  | c :: c2 :: t => simp [joinSlash]

theorem joinSlash_append_last (cs : List ByteStr) (d : ByteStr) (hne : cs ≠ []) :
    joinSlash (cs ++ [d]) = joinSlash cs ++ 47 :: d := by
  induction cs with
  | nil => exact absurd rfl hne
  | cons c cs ih =>
    match cs, ih with
    | [], _ => simp [joinSlash]
    | c2 :: t, ih =>
      have h2 := ih (by simp)
      show joinSlash (c :: c2 :: (t ++ [d])) = (c ++ 47 :: joinSlash (c2 :: t)) ++ 47 :: d
      rw [show joinSlash (c :: c2 :: (t ++ [d])) =
        c ++ 47 :: joinSlash (c2 :: (t ++ [d])) from rfl]
      rw [show (c2 :: (t ++ [d]) : List ByteStr) = (c2 :: t) ++ [d] from rfl, h2]
      simp

theorem joinSlash_getLast {cs : List ByteStr} (hg : ∀ c ∈ cs, GoodComp c) (hne : cs ≠ []) :
    ∃ b, (joinSlash cs).getLast? = some b ∧ b ≠ 47 := by
  induction cs with
  | nil => exact absurd rfl hne
  | cons c cs ih =>
    match cs, ih with
    | [], _ =>
      have hc := hg c (by simp)
      refine ⟨c.getLast hc.1, ?_, ?_⟩
      · exact List.getLast?_eq_getLast c hc.1
      · intro hb
        exact hc.2.1 (hb ▸ List.getLast_mem hc.1)
    | c2 :: t, ih =>
      obtain ⟨b, hb, hb47⟩ := ih (fun x hx => hg x (by simp [hx])) (by simp)
      refine ⟨b, ?_, hb47⟩
      show (c ++ 47 :: joinSlash (c2 :: t)).getLast? = some b
      rw [List.getLast?_append, List.getLast?_cons, hb]
      simp

theorem joinSlash_head {cs : List ByteStr} (hg : ∀ c ∈ cs, GoodComp c) (hne : cs ≠ []) :
    ∃ b, (joinSlash cs).head? = some b ∧ b ≠ 47 := by
  match cs with
  | [] => exact absurd rfl hne
  | [c] =>
    have hc := hg c (by simp)
    refine ⟨c.head hc.1, List.head?_eq_head hc.1, ?_⟩
    intro hb
    exact hc.2.1 (hb ▸ List.head_mem hc.1)
  | c :: c2 :: t =>
    have hc := hg c (by simp)
    refine ⟨c.head hc.1, ?_, ?_⟩
    · show (c ++ 47 :: joinSlash (c2 :: t)).head? = some (c.head hc.1)
      rw [List.head?_append, List.head?_eq_head hc.1]
      rfl
    · intro hb
      exact hc.2.1 (hb ▸ List.head_mem hc.1)

theorem memrchr_eq_none {c : Nat} {l : ByteStr} (h : c ∉ l) : memrchr c l = none := by
  induction l with
  | nil => rfl
  | cons a t ih =>
    simp only [List.mem_cons, not_or] at h
    rw [show memrchr c (a :: t) = (match memrchr c t with
      | some i => some (i + 1)
      | none => if a == c then some 0 else none) from rfl]
    rw [ih h.2]
    have ha : ¬a = c := fun hac => h.1 hac.symm
    simp [ha]

theorem memrchr_last47 (l d : ByteStr) (hd : 47 ∉ d) :
    memrchr 47 (l ++ 47 :: d) = some l.length := by
  induction l with
  | nil =>
    show memrchr 47 (47 :: d) = some 0
    rw [show memrchr 47 (47 :: d) = (match memrchr 47 d with
      | some i => some (i + 1)
      | none => if (47 : Nat) == 47 then some 0 else none) from rfl]
    rw [memrchr_eq_none hd]
    rfl
  | cons a t ih =>
    show memrchr 47 (a :: (t ++ 47 :: d)) = some (t.length + 1)
    rw [show memrchr 47 (a :: (t ++ 47 :: d)) = (match memrchr 47 (t ++ 47 :: d) with
      | some i => some (i + 1)
      | none => if a == 47 then some 0 else none) from rfl]
    rw [ih]

theorem findIdx47_no_mem {l : ByteStr} (h : 47 ∉ l) : l.findIdx (· == 47) = l.length := by
  induction l with
  | nil => rfl
  | cons a t ih =>
    simp only [List.mem_cons, not_or] at h
    rw [List.findIdx_cons]
    have ha : (a == 47) = false := beq_eq_false_iff_ne.mpr (fun hac => h.1 hac.symm)
    rw [ha]
    show t.findIdx (· == 47) + 1 = t.length + 1
    rw [ih h.2]

theorem findIdx47_append (l t : ByteStr) (h : 47 ∉ l) :
    (l ++ 47 :: t).findIdx (· == 47) = l.length := by
  induction l with
  | nil =>
    show ((47 : Nat) :: t).findIdx (· == 47) = 0
    rw [List.findIdx_cons]
    rfl
  | cons a l ih =>
    simp only [List.mem_cons, not_or] at h
    show ((a :: (l ++ 47 :: t)) : ByteStr).findIdx (· == 47) = l.length + 1
    rw [List.findIdx_cons]
    have ha : (a == 47) = false := beq_eq_false_iff_ne.mpr (fun hac => h.1 hac.symm)
    rw [ha]
    show (l ++ 47 :: t).findIdx (· == 47) + 1 = l.length + 1
    rw [ih h.2]

theorem not_mem_take_findIdx47 (o : ByteStr) : 47 ∉ o.take (o.findIdx (· == 47)) := by
  induction o with
  | nil => simp
  | cons a t ih =>
    rw [List.findIdx_cons]
    by_cases ha : a = 47
    · subst ha
      simp
    · have hb : (a == 47) = false := beq_eq_false_iff_ne.mpr ha
      rw [hb]
      show 47 ∉ (a :: t).take (t.findIdx (· == 47) + 1)
      rw [List.take_succ_cons]
      simp only [List.mem_cons, not_or]
      exact ⟨fun h47 => ha h47.symm, ih⟩

theorem acc_all_dd : ∀ (acc : List ByteStr) (k : Nat) (rest rem : List ByteStr),
    acc ++ [46, 46] :: rem = List.replicate k [46, 46] ++ rest → [46, 46] ∉ rest →
    acc = List.replicate acc.length [46, 46] := by
  intro acc
  induction acc with
  | nil => intro k rest rem h hr; rfl
  | cons a acc ih =>
    intro k rest rem h hr
    match k with
    | 0 =>
      rw [List.replicate_zero, List.nil_append] at h
      have hmem : ([46, 46] : ByteStr) ∈ rest := by
        rw [← h]
        simp
      exact absurd hmem hr
    | k + 1 =>
      rw [List.replicate_succ] at h
      simp only [List.cons_append] at h
      injection h with h1 h2
      subst h1
      exact congrArg (List.cons [46, 46]) (ih k rest rem h2 hr)

theorem render_last_suffix (abs : Bool) (init : List ByteStr) (d : ByteStr) :
    d <:+ render abs (init ++ [d]) := by
  match init with
  | [] =>
    rcases abs with _ | _
    · exact List.suffix_rfl
    · exact ⟨[47], rfl⟩
  | c :: t =>
    have hj := joinSlash_append_last (c :: t) d (by simp)
    rcases abs with _ | _
    · show d <:+ joinSlash ((c :: t) ++ [d])
      rw [hj]
      exact ⟨joinSlash (c :: t) ++ [47], by simp⟩
    · show d <:+ 47 :: joinSlash ((c :: t) ++ [d])
      rw [hj]
      exact ⟨47 :: joinSlash (c :: t) ++ [47], by simp⟩

theorem not_ends_dotdot (abs : Bool) (init : List ByteStr) (d : ByteStr)
    (hg : ∀ c ∈ init ++ [d], GoodComp c) (hlast : d ≠ [46, 46]) :
    ¬([47, 46, 46] <:+ render abs (init ++ [d])) := by
  intro hsuf
  have hd := hg d (by simp)
  have hdsuf := render_last_suffix abs init d
  rcases List.suffix_or_suffix_of_suffix hdsuf hsuf with h | h
  · obtain ⟨t, ht⟩ := h
    match t, ht with
    | [], ht =>
      have : d = [47, 46, 46] := by simpa using ht
      exact hd.2.1 (by rw [this]; simp)
    | [a], ht =>
      have h2 : d = [46, 46] := by
        have := ht
        simp only [List.cons_append, List.nil_append] at this
        injection this with _ h2
      exact hlast h2
    | [a, b], ht =>
      have h2 : d = [46] := by
        have := ht
        simp only [List.cons_append, List.nil_append] at this
        injection this with _ h3
        injection h3 with _ h4
      exact hd.2.2 h2
    | a :: b :: c :: t2, ht =>
      have h2 : d = [] := by
        have := ht
        simp only [List.cons_append] at this
        injection this with _ h3
        injection h3 with _ h4
        injection h4 with _ h5
        exact (List.append_eq_nil.mp h5).2
      exact hd.1 h2
  · have : (47 : Nat) ∈ d := h.sublist.subset (by simp)
    exact hd.2.1 this

theorem npStep_dot (ret : ByteStr) : npStep ret [46] = ret := by
  simp [npStep]

theorem npStep_empty_dir (ret : ByteStr) : npStep ret [] = ret := by
  simp [npStep]

theorem npStep_append (abs : Bool) (acc : List ByteStr) (dir : ByteStr)
    (hg : ∀ c ∈ acc, GoodComp c) (h1 : dir ≠ []) (h2 : dir ≠ [46]) (h3 : dir ≠ [46, 46]) :
    npStep (render abs acc) dir = render abs (acc ++ [dir]) := by
  unfold npStep
  rw [if_neg (by simp [h2, h3]), if_neg (by simp [h3]), if_pos h1]
  rcases abs with _ | _
  · match acc with
    | [] =>
      rw [if_neg (fun hc => hc.1 rfl)]
      rfl
    | c :: t =>
      obtain ⟨b, hb, hb47⟩ := joinSlash_getLast hg (by simp)
      have hcond : render false (c :: t) ≠ [] ∧
          (render false (c :: t)).getLast? ≠ some 47 := by
        refine ⟨joinSlash_ne_nil (fun x hx => (hg x hx).1) (by simp), ?_⟩
        show (joinSlash (c :: t)).getLast? ≠ some 47
        rw [hb]
        exact fun hc => hb47 (Option.some_inj.mp hc)
      rw [if_pos hcond]
      show (joinSlash (c :: t) ++ [47]) ++ dir = joinSlash ((c :: t) ++ [dir])
      rw [joinSlash_append_last (c :: t) dir (by simp)]
      simp
  · match acc with
    | [] =>
      rw [if_neg (fun hc => hc.2 rfl)]
      rfl
    | c :: t =>
      obtain ⟨b, hb, hb47⟩ := joinSlash_getLast hg (by simp)
      have hcond : render true (c :: t) ≠ [] ∧
          (render true (c :: t)).getLast? ≠ some 47 := by
        refine ⟨by show (47 :: joinSlash (c :: t)) ≠ []; simp, ?_⟩
        show (47 :: joinSlash (c :: t)).getLast? ≠ some 47
        rw [List.getLast?_cons, hb]
        intro hc
        exact hb47 (by simpa using hc)
      rw [if_pos hcond]
      show ((47 :: joinSlash (c :: t)) ++ [47]) ++ dir = 47 :: joinSlash ((c :: t) ++ [dir])
      rw [joinSlash_append_last (c :: t) dir (by simp)]
      simp

theorem dd_sfx : ∀ j : Nat, [47, 46, 46] <:+ joinSlash (List.replicate (j + 2) [46, 46]) := by
  intro j
  induction j with
  | zero => decide
  | succ j ih =>
    have hrw : List.replicate (j + 3) ([46, 46] : ByteStr) =
        [46, 46] :: List.replicate (j + 2) [46, 46] := List.replicate_succ _ _
    rw [hrw]
    have hrw2 : List.replicate (j + 2) ([46, 46] : ByteStr) =
        [46, 46] :: List.replicate (j + 1) [46, 46] := List.replicate_succ _ _
    have hstep : joinSlash ([46, 46] :: List.replicate (j + 2) [46, 46]) =
        [46, 46] ++ 47 :: joinSlash (List.replicate (j + 2) [46, 46]) := by
      rw [hrw2]
      rfl
    rw [hstep]
    refine ih.trans ⟨[46, 46] ++ [47], by simp⟩

theorem npStep_dd_rel (j : Nat) :
    npStep (render false (List.replicate j [46, 46])) [46, 46] =
      render false (List.replicate j [46, 46] ++ [[46, 46]]) := by
  match j with
  | 0 => decide
  | 1 => decide
  | j + 2 =>
    have hsfx := dd_sfx j
    obtain ⟨t, ht⟩ := hsfx
    have hlen : (joinSlash (List.replicate (j + 2) ([46, 46] : ByteStr))).length =
        t.length + 3 := by
      rw [← ht]
      simp
    have hlast : (joinSlash (List.replicate (j + 2) ([46, 46] : ByteStr))).getLast? =
        some 46 := by
      rw [← ht, show t ++ [47, 46, 46] = (t ++ [47, 46]) ++ [46] from by simp]
      exact List.getLast?_concat _
    have hsb : ([47, 46, 46] : ByteStr).isSuffixOf
        (joinSlash (List.replicate (j + 2) [46, 46])) = true :=
      List.isSuffixOf_iff_suffix.mpr ⟨t, ht⟩
    unfold npStep
    rw [if_neg ?c1, if_neg ?c2, if_pos (by decide), if_pos ?c3]
    case c1 =>
      simp only [not_or]
      refine ⟨by decide, ?_⟩
      rintro ⟨-, hr⟩
      have hr2 : joinSlash (List.replicate (j + 2) [46, 46]) = ([47] : ByteStr) := hr
      have hl2 := congrArg List.length hr2
      rw [hlen] at hl2
      simp at hl2
    case c2 =>
      rintro ⟨-, -, -, hns⟩
      exact hns hsb
    case c3 =>
      constructor
      · intro hr
        have hr2 : joinSlash (List.replicate (j + 2) [46, 46]) = ([] : ByteStr) := hr
        have hl2 := congrArg List.length hr2
        rw [hlen] at hl2
        simp at hl2
      · show (joinSlash (List.replicate (j + 2) [46, 46])).getLast? ≠ some 47
        rw [hlast]
        decide
    show (joinSlash (List.replicate (j + 2) [46, 46]) ++ [47]) ++ [46, 46] =
      joinSlash (List.replicate (j + 2) [46, 46] ++ [[46, 46]])
    rw [joinSlash_append_last _ _ (by simp)]
    simp

theorem npStep_pop (abs : Bool) (init : List ByteStr) (d : ByteStr)
    (hg : ∀ c ∈ init ++ [d], GoodComp c) (hlast : d ≠ [46, 46]) :
    npStep (render abs (init ++ [d])) [46, 46] = render abs init := by
  have hd := hg d (by simp)
  have hd47 : 47 ∉ d := hd.2.1
  have hdsuf := render_last_suffix abs init d
  have hsf : ¬(([47, 46, 46] : ByteStr).isSuffixOf (render abs (init ++ [d])) = true) := by
    intro h
    exact not_ends_dotdot abs init d hg hlast (List.isSuffixOf_iff_suffix.mp h)
  have h1 : render abs (init ++ [d]) ≠ [] := by
    intro h
    rw [h] at hdsuf
    exact hd.1 (List.suffix_nil.mp hdsuf)
  have h0 : render abs (init ++ [d]) ≠ [47] := by
    intro h
    rw [h] at hdsuf
    obtain ⟨t, ht⟩ := hdsuf
    match t, ht with
    | [], ht =>
      have hd2 : d = [47] := by simpa using ht
      exact hd47 (by rw [hd2]; simp)
    | [a], ht =>
      have hd2 : d = [] := by
        simp only [List.cons_append, List.nil_append] at ht
        injection ht with _ h2
      exact hd.1 hd2
  have h2 : render abs (init ++ [d]) ≠ [46, 46] := by
    intro h
    rw [h] at hdsuf
    obtain ⟨t, ht⟩ := hdsuf
    match t, ht with
    | [], ht =>
      have hd2 : d = [46, 46] := by simpa using ht
      exact hlast hd2
    | [a], ht =>
      have hd2 : d = [46] := by
        simp only [List.cons_append, List.nil_append] at ht
        injection ht with _ h3
      exact hd.2.2 hd2
    | [a, b], ht =>
      have hd2 : d = [] := by
        simp only [List.cons_append, List.nil_append] at ht
        injection ht with _ h3
        injection h3 with _ h4
      exact hd.1 hd2
  unfold npStep
  rw [if_neg ?hc1, if_pos ?hc2]
  case hc1 =>
    simp only [not_or]
    refine ⟨by decide, ?_⟩
    rintro ⟨-, hr⟩
    exact h0 hr
  case hc2 => exact ⟨rfl, h1, h2, hsf⟩
  rcases abs with _ | _
  · match init with
    | [] =>
      rw [show render false ([] ++ [d]) = d from rfl, memrchr_eq_none hd47]
      rfl
    | c :: t =>
      have hj := joinSlash_append_last (c :: t) d (by simp)
      rw [show render false ((c :: t) ++ [d]) = joinSlash ((c :: t) ++ [d]) from rfl, hj]
      rw [memrchr_last47 (joinSlash (c :: t)) d hd47]
      have hjs : joinSlash (c :: t) ≠ [] :=
        joinSlash_ne_nil (fun x hx => (hg x (by
          rcases List.mem_cons.mp hx with h | h <;> simp [h])).1) (by simp)
      show (if List.length (joinSlash (c :: t)) = 0
          then List.take 1 (joinSlash (c :: t) ++ 47 :: d)
          else List.take (List.length (joinSlash (c :: t)))
            (joinSlash (c :: t) ++ 47 :: d)) =
        render false (c :: t)
      rw [if_neg (fun h => hjs (List.length_eq_zero.mp h)), List.take_left]
      rfl
  · match init with
    | [] =>
      rw [show render true ([] ++ [d]) = ([] : ByteStr) ++ 47 :: d from rfl]
      rw [memrchr_last47 [] d hd47]
      show (if List.length ([] : ByteStr) = 0
          then List.take 1 (([] : ByteStr) ++ 47 :: d)
          else List.take (List.length ([] : ByteStr)) (([] : ByteStr) ++ 47 :: d)) =
        render true []
      rw [if_pos (show List.length ([] : ByteStr) = 0 from rfl)]
      rfl
    | c :: t =>
      have hj := joinSlash_append_last (c :: t) d (by simp)
      have hr : render true ((c :: t) ++ [d]) = (47 :: joinSlash (c :: t)) ++ 47 :: d := by
        show 47 :: joinSlash ((c :: t) ++ [d]) = (47 :: joinSlash (c :: t)) ++ 47 :: d
        rw [hj]
        rfl
      rw [hr, memrchr_last47 (47 :: joinSlash (c :: t)) d hd47]
      show (if List.length (47 :: joinSlash (c :: t)) = 0
          then List.take 1 ((47 :: joinSlash (c :: t)) ++ 47 :: d)
          else List.take (List.length (47 :: joinSlash (c :: t)))
            ((47 :: joinSlash (c :: t)) ++ 47 :: d)) =
        render true (c :: t)
      rw [if_neg (by simp), List.take_left]
      rfl

theorem npStep_replay (abs : Bool) (acc rem : List ByteStr) (dir : ByteStr)
    (hn : Norm abs (acc ++ dir :: rem)) :
    npStep (render abs acc) dir = render abs (acc ++ [dir]) := by
  have hgdir : GoodComp dir := hn.1 dir (by simp)
  have hgacc : ∀ c ∈ acc, GoodComp c := fun c hc => hn.1 c (by simp [hc])
  by_cases hdd : dir = [46, 46]
  · subst hdd
    rcases abs with _ | _
    · obtain ⟨k, rest, hsplit, hnr⟩ := hn.2.1
      have hacc : acc = List.replicate acc.length [46, 46] :=
        acc_all_dd acc k rest rem hsplit hnr
      have h := npStep_dd_rel acc.length
      rw [← hacc] at h
      exact h
    · exact absurd (by simp : ([46, 46] : ByteStr) ∈ acc ++ [46, 46] :: rem)
        (hn.2.2 rfl)
  · exact npStep_append abs acc dir hgacc hgdir.1 hgdir.2.2 hdd

theorem npLoop_nil (ret : ByteStr) : npLoop [] ret = ret := by
  unfold npLoop
  rfl

theorem npLoop_step (o ret : ByteStr) (h : o ≠ []) : npLoop o ret =
    npLoop (o.drop (o.findIdx (· == 47) + 1))
      (npStep ret (o.take (o.findIdx (· == 47)))) := by
  conv_lhs => unfold npLoop
  rw [dif_neg h]

theorem npLoop_replay : ∀ (rem acc : List ByteStr) (abs : Bool), Norm abs (acc ++ rem) →
    npLoop (joinSlash rem) (render abs acc) = render abs (acc ++ rem) := by
  intro rem
  induction rem with
  | nil =>
    intro acc abs hn
    rw [show joinSlash [] = ([] : ByteStr) from rfl, npLoop_nil, List.append_nil]
  | cons dir rem ih =>
    intro acc abs hn
    have hgdir : GoodComp dir := hn.1 dir (by simp)
    have h47 : 47 ∉ dir := hgdir.2.1
    match rem, ih with
    | [], _ =>
      rw [show joinSlash [dir] = dir from rfl]
      rw [npLoop_step _ _ hgdir.1]
      rw [findIdx47_no_mem h47, List.take_length, List.drop_eq_nil_of_le (by omega)]
      rw [npLoop_nil]
      exact npStep_replay abs acc [] dir hn
    | r :: t, ih =>
      rw [show joinSlash (dir :: r :: t) = dir ++ 47 :: joinSlash (r :: t) from rfl]
      rw [npLoop_step _ _ (by simp)]
      rw [findIdx47_append dir _ h47, List.take_left]
      rw [show (dir ++ 47 :: joinSlash (r :: t)).drop (dir.length + 1) =
          joinSlash (r :: t) from by
        rw [← List.drop_drop 1 dir.length (dir ++ 47 :: joinSlash (r :: t)),
          List.drop_left]
        rfl]
      rw [npStep_replay abs acc (r :: t) dir hn]
      rw [ih (acc ++ [dir]) abs (by rw [List.append_assoc]; exact hn)]
      rw [List.append_assoc]
      rfl

theorem norm_nil (abs : Bool) : Norm abs [] :=
  ⟨by simp, ⟨0, [], by simp, by simp⟩, by simp⟩

theorem npStep_norm (abs : Bool) (cs : List ByteStr) (dir : ByteStr) (h47 : 47 ∉ dir)
    (hn : Norm abs cs) :
    ∃ cs2, npStep (render abs cs) dir = render abs cs2 ∧ Norm abs cs2 := by
  by_cases hnil : dir = []
  · exact ⟨cs, by rw [hnil, npStep_empty_dir], hn⟩
  by_cases hdot : dir = [46]
  · exact ⟨cs, by rw [hdot, npStep_dot], hn⟩
  by_cases hdd : dir = [46, 46]
  · subst hdd
    rcases abs with _ | _
    · obtain ⟨k, rest, hsplit, hnr⟩ := hn.2.1
      by_cases hre : rest = []
      · subst hre
        rw [List.append_nil] at hsplit
        subst hsplit
        refine ⟨List.replicate k [46, 46] ++ [[46, 46]], npStep_dd_rel k, ?_, ?_, ?_⟩
        · intro c hc
          have hcd : c = [46, 46] := by
            rcases List.mem_append.mp hc with h | h
            · exact (List.mem_replicate.mp h).2
            · exact List.mem_singleton.mp h
          rw [hcd]
          exact ⟨by decide, by decide, by decide⟩
        · exact ⟨k + 1, [], by simp [List.replicate_succ'], by simp⟩
        · simp
      · have hcne : cs ≠ [] := by
          rw [hsplit]
          simp [List.append_eq_nil, hre]
        have hmem : cs.getLast hcne ∈ rest := by
          have hl1 : cs.getLast? = some (cs.getLast hcne) := List.getLast?_eq_getLast cs hcne
          have hl2 : rest.getLast? = some (rest.getLast hre) := List.getLast?_eq_getLast rest hre
          have hl3 : cs.getLast? = some (rest.getLast hre) := by
            rw [hsplit, List.getLast?_append, hl2]
            simp
          rw [hl3] at hl1
          rw [← Option.some_inj.mp hl1]
          exact List.getLast_mem hre
        have hd : cs.getLast hcne ≠ [46, 46] := fun h => hnr (h ▸ hmem)
        have hsp := List.dropLast_append_getLast hcne
        have hpop := npStep_pop false cs.dropLast (cs.getLast hcne)
          (by rw [hsp]; exact hn.1) hd
        rw [hsp] at hpop
        refine ⟨cs.dropLast, hpop, ?_, ⟨k, rest.dropLast, ?_, ?_⟩, ?_⟩
        · exact fun c hc => hn.1 c ((List.dropLast_sublist cs).subset hc)
        · rw [hsplit, List.dropLast_append_of_ne_nil _ hre]
        · exact fun h => hnr ((List.dropLast_sublist rest).subset h)
        · simp
    · have hnd : [46, 46] ∉ cs := hn.2.2 rfl
      by_cases hcs : cs = []
      · subst hcs
        refine ⟨[], ?_, hn⟩
        show npStep (render true []) [46, 46] = render true []
        decide
      · have hd : cs.getLast hcs ≠ [46, 46] := fun h => hnd (h ▸ List.getLast_mem hcs)
        have hsp := List.dropLast_append_getLast hcs
        have hpop := npStep_pop true cs.dropLast (cs.getLast hcs)
          (by rw [hsp]; exact hn.1) hd
        rw [hsp] at hpop
        refine ⟨cs.dropLast, hpop, ?_, ⟨0, cs.dropLast, by simp, ?_⟩, ?_⟩
        · exact fun c hc => hn.1 c ((List.dropLast_sublist cs).subset hc)
        · exact fun h => hnd ((List.dropLast_sublist cs).subset h)
        · exact fun _ h => hnd ((List.dropLast_sublist cs).subset h)
  · refine ⟨cs ++ [dir], npStep_append abs cs dir hn.1 hnil hdot hdd, ?_⟩
    obtain ⟨k, rest, hsplit, hnr⟩ := hn.2.1
    refine ⟨?_, ⟨k, rest ++ [dir], ?_, ?_⟩, ?_⟩
    · intro c hc
      rcases List.mem_append.mp hc with h | h
      · exact hn.1 c h
      · rw [List.mem_singleton.mp h]
        exact ⟨hnil, h47, hdot⟩
    · rw [hsplit, List.append_assoc]
    · intro h
      rcases List.mem_append.mp h with h | h
      · exact hnr h
      · exact hdd (List.mem_singleton.mp h).symm
    · intro habs h
      rcases List.mem_append.mp h with h | h
      · exact hn.2.2 habs h
      · exact hdd (List.mem_singleton.mp h).symm

theorem npLoop_norm : ∀ (n : Nat) (o : ByteStr), o.length ≤ n →
    ∀ (abs : Bool) (cs : List ByteStr), Norm abs cs →
    ∃ cs2, npLoop o (render abs cs) = render abs cs2 ∧ Norm abs cs2 := by
  intro n
  induction n with
  | zero =>
    intro o ho abs cs hn
    have ho2 : o = [] := List.eq_nil_of_length_eq_zero (Nat.le_zero.mp ho)
    subst ho2
    exact ⟨cs, npLoop_nil _, hn⟩
  | succ n ih =>
    intro o ho abs cs hn
    by_cases he : o = []
    · subst he
      exact ⟨cs, npLoop_nil _, hn⟩
    · rw [npLoop_step o (render abs cs) he]
      obtain ⟨cs1, hstep, hn1⟩ := npStep_norm abs cs (o.take (o.findIdx (· == 47)))
        (not_mem_take_findIdx47 o) hn
      rw [hstep]
      refine ih (o.drop (o.findIdx (· == 47) + 1)) ?_ abs cs1 hn1
      have hpos : 0 < o.length := List.length_pos.mpr he
      rw [List.length_drop]
      omega

theorem normalize_path_norm (o : ByteStr) :
    ∃ abs cs, normalize_path o = render abs cs ∧ Norm abs cs := by
  by_cases he : o = []
  · subst he
    exact ⟨false, [], rfl, norm_nil false⟩
  · unfold normalize_path
    rw [if_neg he]
    by_cases hh : o.head? = some 47
    · rw [if_pos hh]
      obtain ⟨cs2, hl, hn2⟩ := npLoop_norm (o.drop 1).length (o.drop 1) le_rfl
        true [] (norm_nil true)
      exact ⟨true, cs2, hl, hn2⟩
    · rw [if_neg hh]
      obtain ⟨cs2, hl, hn2⟩ := npLoop_norm o.length o le_rfl false [] (norm_nil false)
      exact ⟨false, cs2, hl, hn2⟩

theorem normalize_path_render {abs : Bool} {cs : List ByteStr} (hn : Norm abs cs) :
    normalize_path (render abs cs) = render abs cs := by
  rcases abs with _ | _
  · by_cases hcs : cs = []
    · subst hcs
      rfl
    · unfold normalize_path
      have hne : render false cs ≠ [] :=
        joinSlash_ne_nil (fun c hc => (hn.1 c hc).1) hcs
      rw [if_neg hne]
      obtain ⟨b, hb, hb47⟩ := joinSlash_head hn.1 hcs
      have hh : (render false cs).head? ≠ some 47 := by
        show (joinSlash cs).head? ≠ some 47
        rw [hb]
        intro h
        exact hb47 (Option.some_inj.mp h)
      rw [if_neg hh]
      exact npLoop_replay cs [] false (by simpa using hn)
  · unfold normalize_path
    have hne : render true cs ≠ [] := by
      show (47 :: joinSlash cs) ≠ []
      simp
    rw [if_neg hne]
    have hh : (render true cs).head? = some 47 := rfl
    rw [if_pos hh]
    exact npLoop_replay cs [] true (by simpa using hn)

/-- Claim C9: `normalize_path` is idempotent — applying it to its own output
returns that output unchanged, for every input byte string. -/
theorem c9_normalize_path_idempotent (o : ByteStr) :
    normalize_path (normalize_path o) = normalize_path o := by
  obtain ⟨abs, cs, h, hn⟩ := normalize_path_norm o
  rw [h]
  exact normalize_path_render hn

end Kati
